import Mathlib

/-!
Verification of the chessbot repository's move-search core against its
specification.

The repository (src/chessbot) is written in Python on top of the
python-chess library.  The development below shallowly embeds:

* the parts of the python-chess library the repository relies on
  (board state, legal move generation, push/pop, FEN parsing and
  printing, game-over detection) — these model the library's documented
  behaviour, which implements the standard rules of chess;
* the repository's own code: `board.py` (ChessBoard wrapper),
  `engine.py` (ChessEngine: evaluation, alpha-beta minimax,
  get_best_move), `engine/minimax.py` (MinimaxEngine variant) and
  `uci_engine_advanced.py` (time-control parsing and the time budget).

Machine integers are modelled as `Int`/`Nat` (Python integers are
unbounded); Python floats used for time budgets are modelled as `Rat`
(every quantity involved is an exact decimal); Python's float
infinities used as search sentinels are modelled by the three-point
extension `EScore` of `Int`.  Python exceptions are modelled with
`Option`/`Except`.
-/

/-- Piece kinds, as in python-chess `PIECE_TYPES`. -/
inductive PieceType where
  | pawn
  | knight
  | bishop
  | rook
  | queen
  | king
deriving DecidableEq, Repr

/-- A coloured piece.  `color = true` is White (python-chess `WHITE = True`). -/
structure Piece where
  pieceType : PieceType
  color : Bool
deriving DecidableEq, Repr

/-- The four castling-rights booleans (an abstraction of the
python-chess `castling_rights` rook bitboard, restricted to standard
chess). -/
structure CastlingRights where
  wk : Bool
  wq : Bool
  bk : Bool
  bq : Bool
deriving DecidableEq, Repr

/-- A chess position, modelling the state of a python-chess `Board`
(squares indexed 0 = a1, 1 = b1, …, 63 = h8, as in python-chess). -/
structure Position where
  board : List (Option Piece)
  turn : Bool
  castling : CastlingRights
  epSquare : Option Nat
  halfmove : Nat
  fullmove : Nat
deriving DecidableEq, Repr

/-- A move, as in python-chess `Move` (drops are not modelled; the
repository only ever deals with ordinary moves). -/
structure Move where
  fromSq : Nat
  toSq : Nat
  promotion : Option PieceType
deriving DecidableEq, Repr

def fileOf (sq : Nat) : Nat := sq % 8

def rankOf (sq : Nat) : Nat := sq / 8

/-- Square from (file, rank) given as integers; `none` when off the board. -/
def sqAt (f r : Int) : Option Nat :=
  if 0 ≤ f ∧ f < 8 ∧ 0 ≤ r ∧ r < 8 then some (r.toNat * 8 + f.toNat) else none

def pieceAt (p : Position) (sq : Nat) : Option Piece :=
  p.board.getD sq none

def setSquare (b : List (Option Piece)) (sq : Nat) (v : Option Piece) :
    List (Option Piece) :=
  b.set sq v

def isColorAt (p : Position) (sq : Nat) (c : Bool) : Bool :=
  match pieceAt p sq with
  | none => false
  | some pc => pc.color = c

def isKindAt (p : Position) (sq : Nat) (c : Bool) (k : PieceType) : Bool :=
  match pieceAt p sq with
  | none => false
  | some pc => pc.color = c && pc.pieceType = k

/-- Walk a sliding ray from (f, r) in direction (df, dr); collect squares a
slider of colour `c` can move to (empty squares, then at most one enemy
square). -/
def rayMoves (p : Position) (c : Bool) : Nat → Int → Int → Int → Int → List Nat
  | 0, _, _, _, _ => []
  | fuel + 1, f, r, df, dr =>
    match sqAt (f + df) (r + dr) with
    | none => []
    | some sq =>
      match pieceAt p sq with
      | none => sq :: rayMoves p c fuel (f + df) (r + dr) df dr
      | some pc => if pc.color = c then [] else [sq]

def rookDirs : List (Int × Int) := [(1, 0), (-1, 0), (0, 1), (0, -1)]

def bishopDirs : List (Int × Int) := [(1, 1), (1, -1), (-1, 1), (-1, -1)]

def knightOffsets : List (Int × Int) :=
  [(1, 2), (2, 1), (2, -1), (1, -2), (-1, -2), (-2, -1), (-2, 1), (-1, 2)]

def kingOffsets : List (Int × Int) :=
  [(1, 0), (1, 1), (0, 1), (-1, 1), (-1, 0), (-1, -1), (0, -1), (1, -1)]

/-- Destination squares of leaper pieces (knight/king) of colour `c` from
`sq`, excluding squares occupied by `c`'s own pieces. -/
def leaperTargets (p : Position) (c : Bool) (sq : Nat) (offs : List (Int × Int)) :
    List Nat :=
  (offs.filterMap fun d => sqAt ((fileOf sq : Int) + d.1) ((rankOf sq : Int) + d.2)).filter
    fun t => !isColorAt p t c

/-- Destination squares of a slider of colour `c` on `sq` along `dirs`. -/
def sliderTargets (p : Position) (c : Bool) (sq : Nat) (dirs : List (Int × Int)) :
    List Nat :=
  dirs.flatMap fun d => rayMoves p c 7 (fileOf sq : Int) (rankOf sq : Int) d.1 d.2

/-- Is the square `sq` attacked by any piece of colour `by_`?  Models
python-chess `Board.is_attacked_by`. -/
def isAttacked (p : Position) (sq : Nat) (by_ : Bool) : Bool :=
  let f : Int := fileOf sq
  let r : Int := rankOf sq
  -- pawn attackers sit one rank towards their own side and one file away
  let pawnDir : Int := if by_ then 1 else -1
  let pawnHit :=
    [(-1 : Int), 1].any fun df =>
      match sqAt (f + df) (r - pawnDir) with
      | none => false
      | some s => isKindAt p s by_ .pawn
  let knightHit :=
    knightOffsets.any fun d =>
      match sqAt (f + d.1) (r + d.2) with
      | none => false
      | some s => isKindAt p s by_ .knight
  let kingHit :=
    kingOffsets.any fun d =>
      match sqAt (f + d.1) (r + d.2) with
      | none => false
      | some s => isKindAt p s by_ .king
  -- first piece along a ray; a slider of the right kind attacks sq
  let rayHit := fun (dirs : List (Int × Int)) (k1 k2 : PieceType) =>
    dirs.any fun d =>
      let targets := rayMoves p (!by_) 7 f r d.1 d.2
      -- rayMoves for colour !by_ ends with a piece of colour by_ if the ray
      -- is closed by such a piece; inspect that final square
      match targets.getLast? with
      | none => false
      | some last => isKindAt p last by_ k1 || isKindAt p last by_ k2
  pawnHit || knightHit || kingHit ||
    rayHit rookDirs .rook .queen || rayHit bishopDirs .bishop .queen

/-- Square of the king of colour `c`, if present. -/
def kingSq (p : Position) (c : Bool) : Option Nat :=
  (List.range 64).find? fun sq => isKindAt p sq c .king

def backRank (c : Bool) : Nat := if c then 0 else 7

def promotionRank (c : Bool) : Nat := if c then 7 else 0

/-- Promotion piece kinds, each yielding a distinct move. -/
def promoKinds : List PieceType := [.queen, .rook, .bishop, .knight]

/-- Pseudo-legal pawn moves from `sq` for the side to move. -/
def pawnMoves (p : Position) (sq : Nat) : List Move :=
  let c := p.turn
  let f : Int := fileOf sq
  let r : Int := rankOf sq
  let dir : Int := if c then 1 else -1
  let startRank : Int := if c then 1 else 6
  let mkTo := fun (t : Nat) =>
    if rankOf t = promotionRank c then
      promoKinds.map fun k => Move.mk sq t (some k)
    else [Move.mk sq t none]
  let push :=
    match sqAt f (r + dir) with
    | none => []
    | some t =>
      if (pieceAt p t).isNone then
        mkTo t ++
          (if r = startRank then
            match sqAt f (r + 2 * dir) with
            | none => []
            | some t2 => if (pieceAt p t2).isNone then [Move.mk sq t2 none] else []
          else [])
      else []
  let caps :=
    [(-1 : Int), 1].flatMap fun df =>
      match sqAt (f + df) (r + dir) with
      | none => []
      | some t =>
        if isColorAt p t (!c) then mkTo t
        else if p.epSquare = some t && (pieceAt p t).isNone &&
            r = (if c then 4 else 3) then
          [Move.mk sq t none]
        else []
  push ++ caps

/-- Pseudo-legal castling moves (standard chess only), including the
requirements that the king is not in, does not pass through, and does not
land on check; these are exactly the legal castling moves. -/
def castlingMoves (p : Position) : List Move :=
  let c := p.turn
  let base := backRank c * 8
  let e := base + 4
  let opp := !c
  let kingHome := isKindAt p e c .king
  let ks :=
    if (if c then p.castling.wk else p.castling.bk) && kingHome &&
        isKindAt p (base + 7) c .rook &&
        (pieceAt p (base + 5)).isNone && (pieceAt p (base + 6)).isNone &&
        !isAttacked p e opp && !isAttacked p (base + 5) opp &&
        !isAttacked p (base + 6) opp then
      [Move.mk e (base + 6) none]
    else []
  let qs :=
    if (if c then p.castling.wq else p.castling.bq) && kingHome &&
        isKindAt p base c .rook &&
        (pieceAt p (base + 1)).isNone && (pieceAt p (base + 2)).isNone &&
        (pieceAt p (base + 3)).isNone &&
        !isAttacked p e opp && !isAttacked p (base + 3) opp &&
        !isAttacked p (base + 2) opp then
      [Move.mk e (base + 2) none]
    else []
  ks ++ qs

/-- All pseudo-legal moves for the side to move. -/
def pseudoMoves (p : Position) : List Move :=
  ((List.range 64).flatMap fun sq =>
    match pieceAt p sq with
    | none => []
    | some pc =>
      if pc.color = p.turn then
        match pc.pieceType with
        | .pawn => pawnMoves p sq
        | .knight => (leaperTargets p p.turn sq knightOffsets).map fun t => Move.mk sq t none
        | .king => (leaperTargets p p.turn sq kingOffsets).map fun t => Move.mk sq t none
        | .bishop => (sliderTargets p p.turn sq bishopDirs).map fun t => Move.mk sq t none
        | .rook => (sliderTargets p p.turn sq rookDirs).map fun t => Move.mk sq t none
        | .queen =>
          (sliderTargets p p.turn sq (rookDirs ++ bishopDirs)).map fun t => Move.mk sq t none
      else []) ++ castlingMoves p

/-- Apply a (legal) move to a position, modelling python-chess
`Board.push` for ordinary moves: piece movement, captures, en passant,
promotion, castling rook relocation, rights/clock/turn updates. -/
def applyMove (p : Position) (m : Move) : Position :=
  let pc := (pieceAt p m.fromSq).getD (Piece.mk .pawn p.turn)
  let isPawn := pc.pieceType = PieceType.pawn
  let isEp := isPawn && p.epSquare = some m.toSq && (pieceAt p m.toSq).isNone &&
    fileOf m.fromSq ≠ fileOf m.toSq
  let isCapture := (pieceAt p m.toSq).isSome || isEp
  let b1 := setSquare p.board m.fromSq none
  let b2 :=
    if isEp then
      setSquare b1 (if p.turn then m.toSq - 8 else m.toSq + 8) none
    else b1
  let placed : Piece :=
    match m.promotion with
    | some k => Piece.mk k pc.color
    | none => pc
  let b3 := setSquare b2 m.toSq (some placed)
  let b4 :=
    if pc.pieceType = PieceType.king && fileOf m.fromSq = 4 &&
        fileOf m.toSq = 6 && rankOf m.fromSq = rankOf m.toSq then
      setSquare (setSquare b3 (m.fromSq + 3) none) (m.fromSq + 1)
        (some (Piece.mk .rook pc.color))
    else if pc.pieceType = PieceType.king && fileOf m.fromSq = 4 &&
        fileOf m.toSq = 2 && rankOf m.fromSq = rankOf m.toSq then
      setSquare (setSquare b3 (m.fromSq - 4) none) (m.fromSq - 1)
        (some (Piece.mk .rook pc.color))
    else b3
  let ep2 :=
    if isPawn && (rankOf m.fromSq : Int) - (rankOf m.toSq : Int) = 2 then
      some (m.toSq + 8)
    else if isPawn && (rankOf m.toSq : Int) - (rankOf m.fromSq : Int) = 2 then
      some (m.fromSq + 8)
    else none
  let cr := p.castling
  -- rights are lost when the rook's corner square is touched, or when the
  -- side to move plays a king move (python-chess clears the mover's whole
  -- back rank of rights in that case)
  let kingMove := pc.pieceType = PieceType.king
  let cr2 : CastlingRights :=
    { wk := cr.wk && m.fromSq ≠ 7 && m.toSq ≠ 7 && !(kingMove && p.turn)
      wq := cr.wq && m.fromSq ≠ 0 && m.toSq ≠ 0 && !(kingMove && p.turn)
      bk := cr.bk && m.fromSq ≠ 63 && m.toSq ≠ 63 && !(kingMove && !p.turn)
      bq := cr.bq && m.fromSq ≠ 56 && m.toSq ≠ 56 && !(kingMove && !p.turn) }
  { board := b4
    turn := !p.turn
    castling := cr2
    epSquare := ep2
    halfmove := if isPawn || isCapture then 0 else p.halfmove + 1
    fullmove := if p.turn then p.fullmove else p.fullmove + 1 }

/-- Legal moves of the side to move (pseudo-legal moves that do not leave
the mover's own king attacked), modelling python-chess
`Board.generate_legal_moves` as a list. -/
def legalMovesP (p : Position) : List Move :=
  (pseudoMoves p).filter fun m =>
    let q := applyMove p m
    match kingSq q p.turn with
    | none => true
    | some k => !isAttacked q k (!p.turn)

/-- Side to move is in check (python-chess `Board.is_check`). -/
def inCheck (p : Position) : Bool :=
  match kingSq p p.turn with
  | none => false
  | some k => isAttacked p k (!p.turn)

/-- python-chess `Board.is_checkmate`. -/
def isCheckmateP (p : Position) : Bool :=
  inCheck p && (legalMovesP p).isEmpty

/-- python-chess `Board.is_stalemate`. -/
def isStalemateP (p : Position) : Bool :=
  !inCheck p && (legalMovesP p).isEmpty

def piecesOf (p : Position) : List Piece :=
  p.board.filterMap id

def countP (p : Position) (f : Piece → Bool) : Nat :=
  (piecesOf p).countP f

/-- python-chess `Board.has_insufficient_material(color)`. -/
def hasInsufficientMaterial (p : Position) (c : Bool) : Bool :=
  if countP p (fun pc => pc.color = c &&
      (pc.pieceType = PieceType.pawn || pc.pieceType = PieceType.rook ||
        pc.pieceType = PieceType.queen)) ≠ 0 then
    false
  else if countP p (fun pc => pc.color = c && pc.pieceType = PieceType.knight) ≠ 0 then
    decide (countP p (fun pc => pc.color = c) ≤ 2) &&
      countP p (fun pc => pc.color = !c && pc.pieceType ≠ PieceType.king &&
        pc.pieceType ≠ PieceType.queen) = 0
  else if countP p (fun pc => pc.color = c && pc.pieceType = PieceType.bishop) ≠ 0 then
    -- all bishops (of both colours) on one square colour, and no pawns or
    -- knights of either colour on the board
    (((List.range 64).all fun sq =>
        !(isKindAt p sq true .bishop || isKindAt p sq false .bishop) ||
          (fileOf sq + rankOf sq) % 2 = 0) ||
      ((List.range 64).all fun sq =>
        !(isKindAt p sq true .bishop || isKindAt p sq false .bishop) ||
          (fileOf sq + rankOf sq) % 2 = 1)) &&
      countP p (fun pc => pc.pieceType = PieceType.pawn) = 0 &&
      countP p (fun pc => pc.pieceType = PieceType.knight) = 0
  else true

/-- python-chess `Board.is_insufficient_material`. -/
def isInsufficientMaterialP (p : Position) : Bool :=
  hasInsufficientMaterial p true && hasInsufficientMaterial p false

/-- python-chess `Board.is_seventyfive_moves`. -/
def isSeventyfiveMoves (p : Position) : Bool :=
  decide (150 ≤ p.halfmove) && !(legalMovesP p).isEmpty

/-- python-chess `Board.push(Move.null())`: flip the turn, clear the en
passant square, advance the clocks. -/
def nullPush (p : Position) : Position :=
  { p with
    turn := !p.turn
    epSquare := none
    halfmove := p.halfmove + 1
    fullmove := if p.turn then p.fullmove else p.fullmove + 1 }

/-- Is a pseudo-legal en-passant capture available and legal?  Used by
python-chess `Board.has_legal_en_passant` (which gates en passant in the
transposition key and in FEN output). -/
def hasLegalEnPassant (p : Position) : Bool :=
  p.epSquare.isSome &&
    (legalMovesP p).any fun m =>
      isKindAt p m.fromSq p.turn .pawn && p.epSquare = some m.toSq &&
        (pieceAt p m.toSq).isNone

/-- Transposition key used by python-chess repetition detection: piece
placement, side to move, castling rights, and the en-passant square when
a legal en-passant capture exists. -/
def transpositionKey (p : Position) :
    List (Option Piece) × Bool × CastlingRights × Option Nat :=
  (p.board, p.turn, p.castling, if hasLegalEnPassant p then p.epSquare else none)

/-- python-chess `Board.is_zeroing(move)`: pawn move or capture. -/
def isZeroing (p : Position) (m : Move) : Bool :=
  isKindAt p m.fromSq p.turn .pawn || isColorAt p m.toSq (!p.turn)

/-- python-chess `Board.is_irreversible(move)` evaluated on the position
the move was played from. -/
def isIrreversible (p : Position) (m : Move) : Bool :=
  isZeroing p m || hasLegalEnPassant p || p.castling ≠ (applyMove p m).castling

/-- The state of a python-chess `Board` object (and of the repository's
`ChessBoard` wrapper around it, which adds no state of its own): the
current position plus the undo stack of (move, previous position)
snapshots kept by `push`/`pop`. -/
structure ChessBoard where
  pos : Position
  stack : List (Move × Position)
deriving DecidableEq, Repr

/-- python-chess `Board.push` (stores a snapshot, applies the move). -/
def pushB (b : ChessBoard) (m : Move) : ChessBoard :=
  ChessBoard.mk (applyMove b.pos m) ((m, b.pos) :: b.stack)

/-- python-chess `Board.pop` (restores the snapshot); on an empty stack
the repository's `undo_move` does nothing (it checks `move_stack`
first). -/
def popB (b : ChessBoard) : ChessBoard :=
  match b.stack with
  | [] => b
  | (_, prev) :: rest => ChessBoard.mk prev rest

/-- Number of ancestors in the undo stack, walking backwards and stopping
at the first irreversible move, whose transposition key matches `key`.
Models the backward walk in python-chess `Board.is_repetition`. -/
def repMatches (key : List (Option Piece) × Bool × CastlingRights × Option Nat) :
    List (Move × Position) → Nat
  | [] => 0
  | (m, prev) :: rest =>
    if isIrreversible prev m then 0
    else (if transpositionKey prev = key then 1 else 0) + repMatches key rest

/-- python-chess `Board.is_repetition(count)`. -/
def isRepetition (b : ChessBoard) (count : Nat) : Bool :=
  decide (count ≤ 1) || decide (count - 1 ≤ repMatches (transpositionKey b.pos) b.stack)

/-- python-chess `Board.is_fivefold_repetition`. -/
def isFivefoldRepetition (b : ChessBoard) : Bool :=
  isRepetition b 5

/-- python-chess `Board.is_game_over()` (without draw claims): checkmate,
insufficient material, stalemate, seventy-five-move rule, or fivefold
repetition. -/
def isGameOverB (b : ChessBoard) : Bool :=
  isCheckmateP b.pos || isInsufficientMaterialP b.pos || isStalemateP b.pos ||
    isSeventyfiveMoves b.pos || isFivefoldRepetition b

-- ### FEN serialization (python-chess `Board.fen()`)

def fileChars : List Char := ['a', 'b', 'c', 'd', 'e', 'f', 'g', 'h']

def squareName (sq : Nat) : String :=
  String.mk [fileChars.getD (fileOf sq) 'a', Char.ofNat (49 + rankOf sq)]

def pieceChar (pc : Piece) : Char :=
  let lower : Char :=
    match pc.pieceType with
    | .pawn => 'p'
    | .knight => 'n'
    | .bishop => 'b'
    | .rook => 'r'
    | .queen => 'q'
    | .king => 'k'
  if pc.color then lower.toUpper else lower

/-- One FEN rank (8 squares starting at index `base`), with runs of empty
squares written as digits. -/
def fenRank (p : Position) (base : Nat) : String :=
  let step := fun (acc : String × Nat) (i : Nat) =>
    match pieceAt p (base + i) with
    | none => (acc.1, acc.2 + 1)
    | some pc =>
      let gap := if acc.2 = 0 then "" else (Nat.repr acc.2)
      (acc.1 ++ gap ++ String.mk [pieceChar pc], 0)
  let out := (List.range 8).foldl step ("", 0)
  out.1 ++ (if out.2 = 0 then "" else Nat.repr out.2)

def castlingFen (cr : CastlingRights) : String :=
  let s := (if cr.wk then "K" else "") ++ (if cr.wq then "Q" else "") ++
    (if cr.bk then "k" else "") ++ (if cr.bq then "q" else "")
  if s = "" then "-" else s

/-- python-chess `Board.fen()` with its defaults: the en passant field is
written only when a legal en passant capture exists. -/
def fenOf (p : Position) : String :=
  let ranks := [7, 6, 5, 4, 3, 2, 1, 0].map fun r => fenRank p (8 * r)
  String.intercalate "/" ranks ++ " " ++ (if p.turn then "w" else "b") ++ " " ++
    castlingFen p.castling ++ " " ++
    (match p.epSquare with
     | some sq => if hasLegalEnPassant p then squareName sq else "-"
     | none => "-") ++ " " ++
    Nat.repr p.halfmove ++ " " ++ Nat.repr p.fullmove

-- ### FEN parsing (python-chess `Board(fen)` / `Board.set_fen`)

def pieceOfChar (c : Char) : Option Piece :=
  match c with
  | 'P' => some (Piece.mk .pawn true)
  | 'N' => some (Piece.mk .knight true)
  | 'B' => some (Piece.mk .bishop true)
  | 'R' => some (Piece.mk .rook true)
  | 'Q' => some (Piece.mk .queen true)
  | 'K' => some (Piece.mk .king true)
  | 'p' => some (Piece.mk .pawn false)
  | 'n' => some (Piece.mk .knight false)
  | 'b' => some (Piece.mk .bishop false)
  | 'r' => some (Piece.mk .rook false)
  | 'q' => some (Piece.mk .queen false)
  | 'k' => some (Piece.mk .king false)
  | _ => none

/-- Parse one FEN board row into 8 cells; rejects unknown characters,
consecutive digits, and rows that do not sum to 8 squares (the checks
made by python-chess `_set_board_fen`; the `~` promoted marker is not
modelled). -/
def parseFenRow (cs : List Char) (prevDigit : Bool) : Option (List (Option Piece)) :=
  match cs with
  | [] => some []
  | c :: rest =>
    if '1' ≤ c ∧ c ≤ '8' then
      if prevDigit then none
      else
        match parseFenRow rest true with
        | none => none
        | some tl => some (List.replicate (c.toNat - 48) none ++ tl)
    else
      match pieceOfChar c with
      | none => none
      | some pc =>
        match parseFenRow rest false with
        | none => none
        | some tl => some (some pc :: tl)

/-- Split a character list at every occurrence of `sep` (Python
`str.split(sep)`: n separators yield n+1 fields, possibly empty). -/
def splitOnChar (sep : Char) : List Char → List (List Char)
  | [] => [[]]
  | c :: rest =>
    let r := splitOnChar sep rest
    if c = sep then [] :: r
    else
      match r with
      | [] => [[c]]
      | h :: t => (c :: h) :: t

def parseBoardPart (cs : List Char) : Option (List (Option Piece)) :=
  let rows := splitOnChar '/' cs
  if rows.length ≠ 8 then none
  else
    let parsed := rows.map fun row => parseFenRow row false
    if parsed.all fun r => match r with | some cells => cells.length = 8 | none => false
    then
      -- FEN lists rank 8 first; square 0 is a1, so reverse the rank order
      some ((parsed.reverse.map fun r => r.getD []).flatten)
    else none

def isDigitChar (c : Char) : Bool := '0' ≤ c && c ≤ '9'

/-- Python `int(str)` on an optionally signed decimal literal. -/
def parseInt (s : String) : Option Int :=
  let cs := s.toList
  let core := fun (ds : List Char) =>
    if ds ≠ [] ∧ ds.all isDigitChar then
      some (ds.foldl (fun acc c => acc * 10 + ((c.toNat : Int) - 48)) 0)
    else none
  match cs with
  | '-' :: rest => (core rest).map fun n => -n
  | '+' :: rest => core rest
  | _ => core cs

/-- Square name `a1`..`h8` to its index. -/
def parseSquareName (s : String) : Option Nat :=
  match s.toList with
  | [cf, cr] =>
    if 'a' ≤ cf ∧ cf ≤ 'h' ∧ '1' ≤ cr ∧ cr ≤ '8' then
      some ((cr.toNat - 49) * 8 + (cf.toNat - 97))
    else none
  | _ => none

/-- The python-chess castling-field regex
`^(?:-|[KQABCDEFGH]\x7b0,2\x7d[kqabcdefgh]\x7b0,2\x7d)$`. -/
def validCastlingField (s : String) : Bool :=
  let upper := fun (c : Char) => c = 'K' || c = 'Q' || ('A' ≤ c && c ≤ 'H')
  let lower := fun (c : Char) => c = 'k' || c = 'q' || ('a' ≤ c && c ≤ 'h')
  s = "-" ||
    (match s.toList with
     | [] => true
     | [a] => upper a || lower a
     | [a, b] => (upper a && upper b) || (upper a && lower b) || (lower a && lower b)
     | [a, b, c] => (upper a && upper b && lower c) || (upper a && lower b && lower c)
     | [a, b, c, d] => upper a && upper b && lower c && lower d
     | _ => false)

def castlingOfField (s : String) : CastlingRights :=
  CastlingRights.mk (s.toList.contains 'K') (s.toList.contains 'Q')
    (s.toList.contains 'k') (s.toList.contains 'q')

/-- python-chess `Board.set_fen`: split into up to six whitespace-separated
fields (missing trailing fields take defaults; extra fields are an
error), validate each, build the position.  `none` models the
`ValueError` raised on invalid input. -/
def parseFen (s : String) : Option Position :=
  let parts := ((splitOnChar ' ' s.toList).map String.mk).filter fun w => w ≠ ""
  match parts with
  | [] => none
  | boardPart :: rest =>
    match parseBoardPart boardPart.toList with
    | none => none
    | some cells =>
      let turnO : Option Bool :=
        match rest.getD 0 "w" with
        | "w" => some true
        | "b" => some false
        | _ => none
      match turnO with
      | none => none
      | some turn =>
        let castlingField := rest.getD 1 "-"
        if !validCastlingField castlingField then none
        else
          let epField := rest.getD 2 "-"
          let epO : Option (Option Nat) :=
            if epField = "-" then some none
            else match parseSquareName epField with
              | some sq => some (some sq)
              | none => none
          match epO with
          | none => none
          | some ep =>
            let halfO :=
              match rest.getD 3 "0" with
              | h => parseInt h
            match halfO with
            | none => none
            | some half =>
              if half < 0 then none
              else
                match parseInt (rest.getD 4 "1") with
                | none => none
                | some full =>
                  if full < 0 then none
                  else if 5 < rest.length then none
                  else
                    some (Position.mk cells turn (castlingOfField castlingField)
                      ep half.toNat (max 1 full.toNat))

-- ### UCI move strings

def promoChar (k : PieceType) : Char :=
  match k with
  | .pawn => 'p'
  | .knight => 'n'
  | .bishop => 'b'
  | .rook => 'r'
  | .queen => 'q'
  | .king => 'k'

/-- python-chess `Move.uci()`. -/
def uciOfMove (m : Move) : String :=
  squareName m.fromSq ++ squareName m.toSq ++
    (match m.promotion with
     | some k => String.mk [promoChar k]
     | none => "")

def kindOfPromoChar (c : Char) : Option PieceType :=
  match c with
  | 'p' => some .pawn
  | 'n' => some .knight
  | 'b' => some .bishop
  | 'r' => some .rook
  | 'q' => some .queen
  | 'k' => some .king
  | _ => none

/-- python-chess `Move.from_uci`: `none` models the `ValueError` raised on
malformed strings.  The null move `0000` and `@`-drop syntax are mapped
to `none`; neither can be a member of `legal_moves`, so every caller in
the repository behaves identically. -/
def moveFromUci (s : String) : Option Move :=
  match s.toList with
  | [a, b, c, d] =>
    match parseSquareName (String.mk [a, b]), parseSquareName (String.mk [c, d]) with
    | some f, some t => if f = t then none else some (Move.mk f t none)
    | _, _ => none
  | [a, b, c, d, e] =>
    match parseSquareName (String.mk [a, b]), parseSquareName (String.mk [c, d]),
        kindOfPromoChar e with
    | some f, some t, some k => if f = t then none else some (Move.mk f t (some k))
    | _, _, _ => none
  | _ => none

-- ### board.py: the ChessBoard wrapper

/-- `ChessBoard.__init__` from a FEN that is assumed valid (the wrapper
constructor propagates the library's `ValueError` on a bad FEN; the
claims below always construct from valid FENs or via `set_fen`). -/
def mkBoard (p : Position) : ChessBoard := ChessBoard.mk p []

def startPosition : Position :=
  (parseFen "rnbqkbnr/pppppppp/8/8/8/8/PPPPPPPP/RNBQKBNR w KQkq - 0 1").getD
    (Position.mk [] true (CastlingRights.mk false false false false) none 0 1)

/-- `ChessBoard.turn` (the wrapper returns "w"/"b"). -/
def ChessBoard.turnStr (b : ChessBoard) : String :=
  if b.pos.turn then "w" else "b"

/-- `ChessBoard.legal_moves` (UCI strings). -/
def ChessBoard.legal_moves (b : ChessBoard) : List String :=
  (legalMovesP b.pos).map uciOfMove

/-- `ChessBoard.is_valid_move`: parse, then membership in legal moves;
a parse failure is caught and reported as `False`. -/
def ChessBoard.is_valid_move (b : ChessBoard) (s : String) : Bool :=
  match moveFromUci s with
  | none => false
  | some m => decide (m ∈ legalMovesP b.pos)

/-- `ChessBoard.make_move`: validate, then push.  Returns the Python
method's boolean result together with the updated object state. -/
def ChessBoard.make_move (b : ChessBoard) (s : String) : Bool × ChessBoard :=
  if b.is_valid_move s then
    match moveFromUci s with
    | some m => (true, pushB b m)
    | none => (false, b)
  else (false, b)

/-- `ChessBoard.undo_move`: pop if the move stack is nonempty. -/
def ChessBoard.undo_move (b : ChessBoard) : ChessBoard :=
  popB b

/-- `ChessBoard.get_fen`. -/
def ChessBoard.get_fen (b : ChessBoard) : String :=
  fenOf b.pos

/-- `ChessBoard.set_fen`: constructs a fresh library board from the string;
on a `ValueError` (modelled by `parseFen = none`) returns `False` and
keeps the previous state. -/
def ChessBoard.set_fen (b : ChessBoard) (s : String) : Bool × ChessBoard :=
  match parseFen s with
  | some p => (true, ChessBoard.mk p [])
  | none => (false, b)

-- ### Extended scores (Python float with plus/minus infinity sentinels)

/-- Scores during search: an integer, or one of the float sentinels
`float("-inf")` / `float("inf")` used by the repository's engines. -/
inductive EScore where
  | minf : EScore
  | fin : Int → EScore
  | pinf : EScore
deriving DecidableEq, Repr

/-- Strict `<` on scores, as Python compares ints and infinities. -/
def elt : EScore → EScore → Bool
  | .minf, .minf => false
  | .minf, _ => true
  | .fin _, .minf => false
  | .fin a, .fin b => a < b
  | .fin _, .pinf => true
  | .pinf, _ => false

/-- `≤` on scores. -/
def ele (a b : EScore) : Bool := !elt b a

/-- Python `max(a, b)` (returns the first argument on ties). -/
def emax (a b : EScore) : EScore := if elt a b then b else a

/-- Python `min(a, b)` (returns the first argument on ties). -/
def emin (a b : EScore) : EScore := if elt b a then b else a

-- ### engine.py: ChessEngine

/-- `ChessEngine.PIECE_VALUES`. -/
def PIECE_VALUES : PieceType → Int
  | .pawn => 100
  | .knight => 320
  | .bishop => 330
  | .rook => 500
  | .queen => 900
  | .king => 20000

/-- The material loop of `ChessEngine.evaluate_position`: over all 64
squares, add the piece value for White pieces, subtract it for Black. -/
def materialScore (p : Position) : Int :=
  (List.range 64).foldl
    (fun s sq =>
      match pieceAt p sq with
      | none => s
      | some pc =>
        if pc.color then s + PIECE_VALUES pc.pieceType
        else s - PIECE_VALUES pc.pieceType)
    0

/-- The mobility part of `ChessEngine._evaluate_positional_factors`:
`white_moves` is the legal-move count of the position as given (the side
to move), `black_moves` the count after pushing a null move (the
opponent). -/
def mobilityScore (p : Position) : Int :=
  let white_moves : Int := (legalMovesP p).length
  let black_moves : Int := (legalMovesP (nullPush p)).length
  (white_moves - black_moves) * 10

/-- The centre-control loop of `_evaluate_positional_factors` (squares
e4, e5, d4, d5 in the source's order). -/
def centerScore (p : Position) : Int :=
  [28, 36, 27, 35].foldl
    (fun s sq =>
      match pieceAt p sq with
      | none => s
      | some pc => if pc.color then s + 20 else s - 20)
    0

/-- `ChessEngine._evaluate_positional_factors`. -/
def evaluatePositionalFactors (p : Position) : Int :=
  mobilityScore p + centerScore p

/-- `ChessEngine.evaluate_position`. -/
def evaluate_position (p : Position) : Int :=
  if isCheckmateP p then (if p.turn then -10000 else 10000)
  else if isStalemateP p || isInsufficientMaterialP p then 0
  else materialScore p + evaluatePositionalFactors p

/-- The maximizing loop of `ChessEngine.minimax`: iterate the legal moves,
recursing with the running (alpha, beta) window; track the best score
and move by strict improvement; after raising alpha, cut off when
`beta <= alpha`. -/
def abMaxLoop (child : Move → EScore → EScore → EScore) :
    List Move → EScore → EScore → EScore → Option Move → EScore × Option Move
  | [], _, _, acc, best => (acc, best)
  | m :: ms, a, b, acc, best =>
    let r := child m a b
    let acc2 := if elt acc r then r else acc
    let best2 := if elt acc r then some m else best
    let a2 := emax a r
    if ele b a2 then (acc2, best2)
    else abMaxLoop child ms a2 b acc2 best2

/-- The minimizing loop of `ChessEngine.minimax`. -/
def abMinLoop (child : Move → EScore → EScore → EScore) :
    List Move → EScore → EScore → EScore → Option Move → EScore × Option Move
  | [], _, _, acc, best => (acc, best)
  | m :: ms, a, b, acc, best =>
    let r := child m a b
    let acc2 := if elt r acc then r else acc
    let best2 := if elt r acc then some m else best
    let b2 := emin b r
    if ele b2 a then (acc2, best2)
    else abMinLoop child ms a b2 acc2 best2

/-- `ChessEngine.minimax(board, depth, alpha, beta, maximizing)`.
Python's `depth` is a nonnegative search depth here (`Nat`); the engine
clamps configured depths to at least 1 in `set_depth`. -/
def minimax : Nat → ChessBoard → EScore → EScore → Bool → EScore × Option Move
  | 0, b, _, _, _ => (EScore.fin (evaluate_position b.pos), none)
  | d + 1, b, a, bt, mx =>
    if isGameOverB b then (EScore.fin (evaluate_position b.pos), none)
    else if mx then
      abMaxLoop (fun m a2 b2 => (minimax d (pushB b m) a2 b2 false).1)
        (legalMovesP b.pos) a bt EScore.minf none
    else
      abMinLoop (fun m a2 b2 => (minimax d (pushB b m) a2 b2 true).1)
        (legalMovesP b.pos) a bt EScore.pinf none

/-- Modelled from the spec: the unpruned minimax loop (maximizer) the
alpha-beta search is compared against — same traversal and strict
tie-breaking, no window, no cutoff. -/
def npMaxLoop (child : Move → EScore) :
    List Move → EScore → Option Move → EScore × Option Move
  | [], acc, best => (acc, best)
  | m :: ms, acc, best =>
    let r := child m
    if elt acc r then npMaxLoop child ms r (some m)
    else npMaxLoop child ms acc best

/-- Modelled from the spec: the unpruned minimax loop (minimizer). -/
def npMinLoop (child : Move → EScore) :
    List Move → EScore → Option Move → EScore × Option Move
  | [], acc, best => (acc, best)
  | m :: ms, acc, best =>
    let r := child m
    if elt r acc then npMinLoop child ms r (some m)
    else npMinLoop child ms acc best

/-- Modelled from the spec: "an unpruned minimax search of the same
position at depth D" — the reference search that examines every move. -/
def minimaxNP : Nat → ChessBoard → Bool → EScore × Option Move
  | 0, b, _ => (EScore.fin (evaluate_position b.pos), none)
  | d + 1, b, mx =>
    if isGameOverB b then (EScore.fin (evaluate_position b.pos), none)
    else if mx then
      npMaxLoop (fun m => (minimaxNP d (pushB b m) false).1)
        (legalMovesP b.pos) EScore.minf none
    else
      npMinLoop (fun m => (minimaxNP d (pushB b m) true).1)
        (legalMovesP b.pos) EScore.pinf none

/-- `ChessEngine.get_best_move` (parameterised by the engine's configured
depth).  `random.choice` in the fallback branch is modelled as picking
the first legal move — the claims about it only concern membership in
the legal-move list. -/
def get_best_move (depth : Nat) (b : ChessBoard) : Option String :=
  if isGameOverB b then none
  else
    match (minimax depth b EScore.minf EScore.pinf b.pos.turn).2 with
    | some m => some (uciOfMove m)
    | none =>
      match legalMovesP b.pos with
      | [] => none
      | m :: _ => some (uciOfMove m)

/-- `ChessEngine.get_move_with_time_limit`: the body ignores the time
limit and calls `get_best_move`. -/
def get_move_with_time_limit (depth : Nat) (b : ChessBoard) (_timeLimit : Rat) :
    Option String :=
  get_best_move depth b

/-- `ChessEngine.set_depth` (clamps to at least 1). -/
def set_depth (depth : Int) : Int :=
  max 1 depth

-- ### engine/minimax.py: MinimaxEngine

/-- `MinimaxEngine.evaluate`: `score += PIECE_VALUES[piece.piece_type] *
piece.color` — the Python bool multiplies as 1 (White) or 0 (Black). -/
def minimaxEngineEvaluate (b : ChessBoard) : Int :=
  (piecesOf b.pos).foldl
    (fun s pc => s + PIECE_VALUES pc.pieceType * (if pc.color then 1 else 0)) 0

mutual

/-- `MinimaxEngine.maxi`: iterates `board.legal_moves` WITHOUT applying
any move, so every branch recurses on the unchanged board. -/
def minimaxEngineMaxi : Nat → ChessBoard → EScore
  | 0, b => EScore.fin (minimaxEngineEvaluate b)
  | d + 1, b =>
    b.legal_moves.foldl (fun acc _ => emax acc (minimaxEngineMini d b)) EScore.minf

/-- `MinimaxEngine.mini`: same, minimizing. -/
def minimaxEngineMini : Nat → ChessBoard → EScore
  | 0, b => EScore.fin (minimaxEngineEvaluate b)
  | d + 1, b =>
    b.legal_moves.foldl (fun acc _ => emin acc (minimaxEngineMaxi d b)) EScore.pinf

end

/-- The loop of `MinimaxEngine.get_best_move`: for each legal move (a UCI
string), compute `maxi(board, depth - 1)` on the unchanged board and
keep the move on strict improvement. -/
def minimaxEngineLoop (b : ChessBoard) (d : Nat) :
    List String → EScore → Option String → Option String
  | [], _, best => best
  | s :: ss, acc, best =>
    let score := minimaxEngineMaxi (d - 1) b
    if elt acc score then minimaxEngineLoop b d ss score (some s)
    else minimaxEngineLoop b d ss acc best

/-- `MinimaxEngine.get_best_move` (parameterised by the engine depth;
meaningful for depth ≥ 1 — Python recurses without bound for smaller
depths when legal moves exist, and `Nat` subtraction truncates that
case). -/
def minimaxEngineGetBestMove (depth : Nat) (b : ChessBoard) : Option String :=
  minimaxEngineLoop b depth b.legal_moves EScore.minf none

/-- `MinimaxEngine.get_move_with_time_limit`: ignores the time limit. -/
def minimaxEngineGetMoveWithTimeLimit (depth : Nat) (b : ChessBoard)
    (_timeLimit : Rat) : Option String :=
  minimaxEngineGetBestMove depth b

-- ### uci_engine_advanced.py: time controls

/-- The `controls` dictionary built by
`AdvancedUCIEngine._parse_time_controls`: every key is present from the
start, numeric keys initialised to `None` (hence `Option Int`). -/
structure TimeControls where
  movetime : Option Int
  wtime : Option Int
  btime : Option Int
  winc : Option Int
  binc : Option Int
  searchDepth : Option Int
  nodes : Option Int
  goInfinite : Bool
deriving DecidableEq, Repr

def emptyTimeControls : TimeControls :=
  TimeControls.mk none none none none none none none false

/-- One `try: controls[k] = int(v) except ValueError: pass` step. -/
def setIntField (old : Option Int) (v : String) : Option Int :=
  match parseInt v with
  | some n => some n
  | none => old

/-- The scanning loop of `_parse_time_controls`: a keyword with a
following token consumes two tokens (whether or not the value parses); a
keyword at the end of the list falls through to the generic else branch;
`infinite` consumes one token. -/
def parseTimeControlsLoop : List String → TimeControls → TimeControls
  | [], c => c
  | [a], c => if a = "infinite" then { c with goInfinite := true } else c
  | a :: v :: rest, c =>
    if a = "movetime" then
      parseTimeControlsLoop rest { c with movetime := setIntField c.movetime v }
    else if a = "wtime" then
      parseTimeControlsLoop rest { c with wtime := setIntField c.wtime v }
    else if a = "btime" then
      parseTimeControlsLoop rest { c with btime := setIntField c.btime v }
    else if a = "winc" then
      parseTimeControlsLoop rest { c with winc := setIntField c.winc v }
    else if a = "binc" then
      parseTimeControlsLoop rest { c with binc := setIntField c.binc v }
    else if a = "depth" then
      parseTimeControlsLoop rest { c with searchDepth := setIntField c.searchDepth v }
    else if a = "nodes" then
      parseTimeControlsLoop rest { c with nodes := setIntField c.nodes v }
    else if a = "infinite" then
      parseTimeControlsLoop (v :: rest) { c with goInfinite := true }
    else parseTimeControlsLoop (v :: rest) c

/-- `AdvancedUCIEngine._parse_time_controls(args)`. -/
def parse_time_controls (args : List String) : TimeControls :=
  parseTimeControlsLoop args emptyTimeControls

/-- Python truthiness of `controls.get(k)` for an Option Int field. -/
def truthyOptInt : Option Int → Bool
  | none => false
  | some n => n ≠ 0

/-- `AdvancedUCIEngine._calculate_time_limit(time_controls)`, with the
board's side to move passed explicitly (the method reads
`self.board.turn`, a "w"/"b" string). `Except.error` models an uncaught
Python exception: `time_controls.get('winc', 0)` returns the stored
`None` (the key is always present), and `None / 1000.0` raises
`TypeError`. -/
def calculate_time_limit (tc : TimeControls) (turn : String) : Except String Rat :=
  if truthyOptInt tc.movetime then
    Except.ok ((tc.movetime.getD 0 : Rat) / 1000)
  else if turn = "w" && truthyOptInt tc.wtime then
    match tc.winc with
    | none => Except.error "TypeError: unsupported operand types NoneType and float"
    | some inc =>
      let baseTime : Rat := (tc.wtime.getD 0 : Rat) / 1000
      let increment : Rat := (inc : Rat) / 1000
      let timeLimit := baseTime / 30 + increment
      Except.ok (max (1 / 10) (min timeLimit 30))
  else if turn = "b" && truthyOptInt tc.btime then
    match tc.binc with
    | none => Except.error "TypeError: unsupported operand types NoneType and float"
    | some inc =>
      let baseTime : Rat := (tc.btime.getD 0 : Rat) / 1000
      let increment : Rat := (inc : Rat) / 1000
      let timeLimit := baseTime / 30 + increment
      Except.ok (max (1 / 10) (min timeLimit 30))
  else Except.ok 5

-- ### Definitions taken from the spec's wording (for comparison)

/-- Modelled from the spec: `clamp(remaining/30 + increment, 0.1s, 30.0s)`
with a missing increment counting as 0 (milliseconds in, seconds out). -/
def specClampBudget (remaining : Int) (increment : Option Int) : Rat :=
  let t : Rat := (remaining : Rat) / 1000 / 30 + ((increment.getD 0 : Int) : Rat) / 1000
  max (1 / 10) (min t 30)

/-- Modelled from the spec: the legal-move count a given colour would
have in the position (for the side not to move, this is the count after
a null move, which hands over the turn). -/
def colorMobility (p : Position) (c : Bool) : Int :=
  if p.turn = c then (legalMovesP p).length
  else (legalMovesP (nullPush p)).length

/-- Modelled from the spec: the claimed evaluation — material plus
`(legal-move-count(White) - legal-move-count(Black)) * 10` plus centre
control, regardless of the side to move. -/
def specEvalWhiteMinusBlack (p : Position) : Int :=
  materialScore p + (colorMobility p true - colorMobility p false) * 10 + centerScore p

/-- Modelled from the spec: "semantically valid" requires each side to
have exactly one king (the Position invariant stated in the spec's data
model). -/
def semanticallyValidPosition (p : Position) : Bool :=
  countP p (fun pc => pc.color = true && pc.pieceType = PieceType.king) = 1 &&
    countP p (fun pc => pc.color = false && pc.pieceType = PieceType.king) = 1

-- ### Concrete fixture positions (from the spec's test fixtures)

/-- The Fool's-Mate fixture FEN from the spec. -/
def foolsPos : Position :=
  (parseFen "rnb1kbnr/pppp1ppp/8/4p3/6Pq/5P2/PPPPP2P/RNBQKBNR w KQkq - 1 3").getD
    startPosition

/-- The position after 1. e4, Black to move. -/
def e4Pos : Position :=
  (parseFen "rnbqkbnr/pppppppp/8/8/4P3/8/PPPP1PPP/RNBQKBNR b KQkq e3 0 1").getD
    startPosition

/-- Lone kings: insufficient material, but both sides still have legal
moves. -/
def kkPos : Position :=
  (parseFen "4k3/8/8/8/8/8/8/4K3 w - - 0 1").getD startPosition

/-- King and queen versus king, White to move: not game over. -/
def kqkPos : Position :=
  (parseFen "k7/8/8/8/8/8/1Q6/K7 w - - 0 1").getD startPosition

/-- A syntactically valid FEN whose position has no kings at all. -/
def kinglessFen : String := "8/8/8/8/8/8/8/8 w - - 0 1"

/-- Running maximum of child scores over a move list (the value computed
by the unpruned maximizing loop). -/
def foldMax (f : Move → EScore) (ms : List Move) (acc : EScore) : EScore :=
  ms.foldl (fun a m => emax a (f m)) acc

/-- Running minimum of child scores over a move list. -/
def foldMin (f : Move → EScore) (ms : List Move) (acc : EScore) : EScore :=
  ms.foldl (fun a m => emin a (f m)) acc

/-- A score is finite (an actual integer, not an infinity sentinel). -/
def isFin : EScore → Bool
  | .fin _ => true
  | _ => false

/-- The score component of the maximizing alpha-beta loop (the best-move
component never feeds back into scores). -/
def abMaxVal (f : Move → EScore → EScore → EScore) :
    List Move → EScore → EScore → EScore → EScore
  | [], _, _, acc => acc
  | m :: ms, a, b, acc =>
    let r := f m a b
    if ele b (emax a r) then emax acc r
    else abMaxVal f ms (emax a r) b (emax acc r)

/-- The score component of the minimizing alpha-beta loop. -/
def abMinVal (f : Move → EScore → EScore → EScore) :
    List Move → EScore → EScore → EScore → EScore
  | [], _, _, acc => acc
  | m :: ms, a, b, acc =>
    let r := f m a b
    if ele (emin b r) a then emin acc r
    else abMinVal f ms a (emin b r) (emin acc r)

/-- The fail-soft relation between an alpha-beta child evaluation `f`
(taking the window) and the corresponding unpruned child evaluation `g`:
inside the open window the values agree; a fail-low result upper-bounds
the true value; a fail-high result lower-bounds it. -/
def ChildRel (f : Move → EScore → EScore → EScore) (g : Move → EScore) : Prop :=
  ∀ m a bt, elt a bt = true →
    ((elt a (f m a bt) = true → elt (f m a bt) bt = true → f m a bt = g m) ∧
     (ele (f m a bt) a = true → ele (g m) (f m a bt) = true) ∧
     (ele bt (f m a bt) = true → ele (f m a bt) (g m) = true))

/-! ## Order toolkit for extended scores -/

theorem elt_irrefl (a : EScore) : elt a a = false := by
  cases a <;> simp [elt]

theorem elt_asymm {a b : EScore} (h : elt a b = true) : elt b a = false := by
  cases a <;> cases b <;> simp_all [elt] <;> omega

theorem elt_trans {a b c : EScore} (h1 : elt a b = true) (h2 : elt b c = true) :
    elt a c = true := by
  cases a <;> cases b <;> cases c <;> simp_all [elt] <;> omega

theorem not_elt_antisymm {a b : EScore} (h1 : elt a b = false)
    (h2 : elt b a = false) : a = b := by
  cases a <;> cases b <;> simp_all [elt] <;> omega

theorem ele_refl (a : EScore) : ele a a = true := by
  simp [ele, elt_irrefl]

theorem ele_iff {a b : EScore} : ele a b = true ↔ elt b a = false := by
  simp [ele]

theorem ele_of_elt {a b : EScore} (h : elt a b = true) : ele a b = true := by
  simp [ele, elt_asymm h]

theorem elt_of_ele_of_elt {a b c : EScore} (h1 : ele a b = true)
    (h2 : elt b c = true) : elt a c = true := by
  cases a <;> cases b <;> cases c <;> simp_all [elt, ele] <;> omega

theorem elt_of_elt_of_ele {a b c : EScore} (h1 : elt a b = true)
    (h2 : ele b c = true) : elt a c = true := by
  cases a <;> cases b <;> cases c <;> simp_all [elt, ele] <;> omega

theorem ele_trans {a b c : EScore} (h1 : ele a b = true) (h2 : ele b c = true) :
    ele a c = true := by
  cases a <;> cases b <;> cases c <;> simp_all [elt, ele] <;> omega

theorem ele_antisymm {a b : EScore} (h1 : ele a b = true) (h2 : ele b a = true) :
    a = b := by
  exact not_elt_antisymm (ele_iff.mp h2) (ele_iff.mp h1)

theorem elt_minf (a : EScore) : elt a EScore.minf = false := by
  cases a <;> simp [elt]

theorem ele_minf (a : EScore) : ele EScore.minf a = true := by
  simp [ele, elt_minf]

theorem elt_pinf (a : EScore) : elt EScore.pinf a = false := by
  cases a <;> simp [elt]

theorem ele_pinf (a : EScore) : ele a EScore.pinf = true := by
  simp [ele, elt_pinf]

theorem elt_pinf_iff {a : EScore} : elt a EScore.pinf = true ↔ a ≠ EScore.pinf := by
  cases a <;> simp [elt]

theorem elt_minf_iff {a : EScore} : elt EScore.minf a = true ↔ a ≠ EScore.minf := by
  cases a <;> simp [elt]

theorem emax_eq_left {a b : EScore} (h : elt a b = false) : emax a b = a := by
  simp [emax, h]

theorem emax_eq_right {a b : EScore} (h : elt a b = true) : emax a b = b := by
  simp [emax, h]

theorem emax_minf (a : EScore) : emax EScore.minf a = a := by
  cases a <;> simp [emax, elt]

theorem ele_left_emax (a b : EScore) : ele a (emax a b) = true := by
  unfold emax
  by_cases h : elt a b = true
  · simp [h, ele_of_elt h]
  · simp [eq_false_of_ne_true h, ele_refl]

theorem ele_right_emax (a b : EScore) : ele b (emax a b) = true := by
  unfold emax
  by_cases h : elt a b = true
  · simp [h, ele_refl]
  · simp [eq_false_of_ne_true h, ele_iff, h]

theorem emax_le {a b c : EScore} (h1 : ele a c = true) (h2 : ele b c = true) :
    ele (emax a b) c = true := by
  unfold emax
  by_cases h : elt a b = true <;> simp [h, h1, h2]

theorem emax_mono_left {a1 a2 b : EScore} (h : ele a1 a2 = true) :
    ele (emax a1 b) (emax a2 b) = true := by
  exact emax_le (ele_trans h (ele_left_emax a2 b)) (ele_right_emax a2 b)

theorem emax_mono_right {a b1 b2 : EScore} (h : ele b1 b2 = true) :
    ele (emax a b1) (emax a b2) = true := by
  exact emax_le (ele_left_emax a b2) (ele_trans h (ele_right_emax a b2))

theorem emax_assoc (a b c : EScore) : emax (emax a b) c = emax a (emax b c) := by
  cases a <;> cases b <;> cases c <;>
    simp [emax, elt] <;> split_ifs <;> simp_all [elt] <;> omega

theorem emax_right_of_elt {a b : EScore} (h : elt a (emax a b) = true) :
    emax a b = b := by
  by_cases hab : elt a b = true
  · exact emax_eq_right hab
  · rw [emax_eq_left (eq_false_of_ne_true hab)] at h
    rw [elt_irrefl] at h
    exact absurd h (by simp)

theorem ele_emax_split {a b c : EScore} (h : ele c (emax a b) = true)
    (ha : elt a c = true) : ele c b = true := by
  by_cases hab : elt a b = true
  · rwa [emax_eq_right hab] at h
  · rw [emax_eq_left (eq_false_of_ne_true hab)] at h
    exact absurd ha (by simp [ele_iff.mp h])

theorem emin_eq_left {a b : EScore} (h : elt b a = false) : emin a b = a := by
  simp [emin, h]

theorem emin_eq_right {a b : EScore} (h : elt b a = true) : emin a b = b := by
  simp [emin, h]

theorem emin_pinf (a : EScore) : emin EScore.pinf a = a := by
  cases a <;> simp [emin, elt]

theorem ele_emin_left (a b : EScore) : ele (emin a b) a = true := by
  unfold emin
  by_cases h : elt b a = true
  · simp [h, ele_of_elt h]
  · simp [eq_false_of_ne_true h, ele_refl]

theorem ele_emin_right (a b : EScore) : ele (emin a b) b = true := by
  unfold emin
  by_cases h : elt b a = true
  · simp [h, ele_refl]
  · simp [eq_false_of_ne_true h, ele_iff, h]

theorem emin_le {a b c : EScore} (h1 : ele c a = true) (h2 : ele c b = true) :
    ele c (emin a b) = true := by
  unfold emin
  by_cases h : elt b a = true <;> simp [h, h1, h2]

theorem emin_mono_left {a1 a2 b : EScore} (h : ele a1 a2 = true) :
    ele (emin a1 b) (emin a2 b) = true := by
  exact emin_le (ele_trans (ele_emin_left a1 b) h) (ele_emin_right a1 b)

theorem emin_mono_right {a b1 b2 : EScore} (h : ele b1 b2 = true) :
    ele (emin a b1) (emin a b2) = true := by
  exact emin_le (ele_emin_left a b1) (ele_trans (ele_emin_right a b1) h)

theorem emin_assoc (a b c : EScore) : emin (emin a b) c = emin a (emin b c) := by
  cases a <;> cases b <;> cases c <;>
    simp [emin, elt] <;> split_ifs <;> simp_all [elt] <;> omega

theorem emin_right_of_elt {a b : EScore} (h : elt (emin a b) a = true) :
    emin a b = b := by
  by_cases hab : elt b a = true
  · exact emin_eq_right hab
  · rw [emin_eq_left (eq_false_of_ne_true hab)] at h
    rw [elt_irrefl] at h
    exact absurd h (by simp)

theorem ele_emin_split {a b c : EScore} (h : ele (emin a b) c = true)
    (ha : elt c a = true) : ele b c = true := by
  by_cases hab : elt b a = true
  · rwa [emin_eq_right hab] at h
  · rw [emin_eq_left (eq_false_of_ne_true hab)] at h
    exact absurd ha (by simp [ele_iff.mp h])

/-! ## Shared helper lemmas about board.py operations -/

theorem applyMove_turn (p : Position) (m : Move) : (applyMove p m).turn = !p.turn :=
  rfl

theorem make_move_of_invalid {b : ChessBoard} {s : String}
    (h : b.is_valid_move s = false) : b.make_move s = (false, b) := by
  unfold ChessBoard.make_move
  simp [h]

theorem make_move_of_valid {b : ChessBoard} {s : String}
    (h : b.is_valid_move s = true) :
    ∃ m, moveFromUci s = some m ∧ m ∈ legalMovesP b.pos ∧
      b.make_move s = (true, pushB b m) := by
  unfold ChessBoard.is_valid_move at h
  match hm : moveFromUci s with
  | none => rw [hm] at h; exact absurd h (by simp)
  | some m =>
    rw [hm] at h
    have h2 : decide (m ∈ legalMovesP b.pos) = true := h
    refine ⟨m, rfl, of_decide_eq_true h2, ?_⟩
    unfold ChessBoard.make_move ChessBoard.is_valid_move
    rw [hm]
    simp [h2]

theorem pushB_pos_ne {b : ChessBoard} {m : Move} : (pushB b m).pos ≠ b.pos := by
  intro he
  have ht := congrArg Position.turn he
  rw [show (pushB b m).pos = applyMove b.pos m from rfl, applyMove_turn] at ht
  simp at ht

/-- C7: For every position and every move string, if the string does not
correspond to a legal move of that position (including syntactically
malformed strings), `make_move` returns false and the position is left
exactly unchanged, without raising; if it does correspond to a legal
move, it returns true and mutates the position. -/
theorem C7_make_move_contract (b : ChessBoard) (s : String) :
    (b.is_valid_move s = false → b.make_move s = (false, b)) ∧
    (b.is_valid_move s = true → ∃ m, moveFromUci s = some m ∧
      m ∈ legalMovesP b.pos ∧ b.make_move s = (true, pushB b m) ∧
      (b.make_move s).2.pos ≠ b.pos) := by
  refine ⟨fun h => make_move_of_invalid h, fun h => ?_⟩
  obtain ⟨m, hm, hmem, he⟩ := make_move_of_valid h
  exact ⟨m, hm, hmem, he, by rw [he]; exact pushB_pos_ne⟩

/-- Witness for C7 at concrete inputs: a malformed string and a legal
move on the initial position. -/
theorem C7_make_move_contract_witness :
    (mkBoard startPosition).make_move "xx99" = (false, mkBoard startPosition) ∧
      ((mkBoard startPosition).make_move "e2e4").1 = true ∧
      ((mkBoard startPosition).make_move "e2e4").2.pos ≠ (mkBoard startPosition).pos := by
  refine ⟨(C7_make_move_contract (mkBoard startPosition) "xx99").1 (by decide), ?_⟩
  obtain ⟨m, hm, hmem, he, hne⟩ :=
    (C7_make_move_contract (mkBoard startPosition) "e2e4").2 (by decide)
  exact ⟨by rw [he], hne⟩

/-- C8: For every position P and every legal move m of P, applying m via
`make_move` and then calling `undo_move` restores the position exactly:
the FEN string of the result equals the FEN string of P (the pop
restores the snapshot bit for bit, rights and counters included). -/
theorem C8_make_undo_restores (b : ChessBoard) (s : String)
    (h : b.is_valid_move s = true) :
    (b.make_move s).2.undo_move = b ∧
      (b.make_move s).2.undo_move.get_fen = b.get_fen := by
  obtain ⟨m, hm, hmem, he⟩ := make_move_of_valid h
  rw [he]
  exact ⟨rfl, rfl⟩

/-- Witness for C8: making 1. e4 from the start position and undoing it
restores the starting FEN exactly. -/
theorem C8_make_undo_restores_witness :
    ((mkBoard startPosition).make_move "e2e4").2.undo_move.get_fen =
      (mkBoard startPosition).get_fen :=
  (C8_make_undo_restores (mkBoard startPosition) "e2e4" (by decide)).2

/-- C9 counterexample: `set_fen` accepts (returns success for) a
syntactically well-formed FEN whose position is not semantically valid
(it has no kings at all), so "fails whenever the string is not
syntactically and semantically valid" is false as stated. -/
theorem C9_kingless_fen_accepted :
    ((mkBoard startPosition).set_fen kinglessFen).1 = true ∧
      semanticallyValidPosition ((mkBoard startPosition).set_fen kinglessFen).2.pos =
        false := by
  constructor
  · decide
  · decide

/-- C9 (amended): `set_fen` returns a failure indicator exactly when the
library's FEN parser rejects the string (syntactic validity; semantic
conditions such as the presence of kings are not checked); it never
raises, and on failure the previously held position is left exactly as
it was. -/
theorem C9_set_fen_contract (b : ChessBoard) (s : String) :
    (parseFen s = none → b.set_fen s = (false, b)) ∧
    (∀ p, parseFen s = some p → b.set_fen s = (true, ChessBoard.mk p [])) := by
  constructor
  · intro h
    unfold ChessBoard.set_fen
    rw [h]
  · intro p h
    unfold ChessBoard.set_fen
    rw [h]

/-- Witness for C9: a malformed FEN is rejected and the board is kept. -/
theorem C9_set_fen_contract_witness :
    (mkBoard startPosition).set_fen "not a fen" = (false, mkBoard startPosition) :=
  (C9_set_fen_contract (mkBoard startPosition) "not a fen").1 (by decide)

/-- C1: the claim is broken by a slip in the code.  `_parse_time_controls`
pre-fills the controls dictionary with `'winc': None`, so for a go
request with the clock set and no increment, `time_controls.get('winc', 0)`
returns that stored `None` (the key exists, so the default 0 is never
used) and `None / 1000.0` raises `TypeError` — instead of computing
`clamp(remaining/30 + 0, 0.1, 30.0)`.  This theorem evaluates the model
at the claim's own example input, `go wtime 30000` with White to move. -/
theorem C1_missing_increment_raises :
    (parse_time_controls ["wtime", "30000"]).winc = none ∧
      (parse_time_controls ["wtime", "30000"]).wtime = some 30000 ∧
      calculate_time_limit (parse_time_controls ["wtime", "30000"]) "w" =
        Except.error "TypeError: unsupported operand types NoneType and float" :=
  ⟨rfl, rfl, rfl⟩

/-- Supporting fact (not itself a claim): when the increment IS supplied,
the computed budget equals the spec's `clamp(remaining/30 + increment,
0.1s, 30.0s)` formula, e.g. wtime 30000 winc 2000 gives exactly 3.0s;
the slip is confined to the missing-increment case. -/
theorem calculate_time_limit_with_increment :
    calculate_time_limit (parse_time_controls ["wtime", "30000", "winc", "2000"]) "w" =
      Except.ok (specClampBudget 30000 (some 2000)) ∧
      specClampBudget 30000 (some 2000) = 3 := by
  constructor
  · rfl
  · unfold specClampBudget
    norm_num

/-- C5: For every position, depth and every pair of time-limit values,
`get_move_with_time_limit` makes exactly the same decision as
`get_best_move`; the time limit is never consulted, in both engine
variants. -/
theorem C5_time_limit_unused (d : Nat) (b : ChessBoard) (t1 t2 : Rat) :
    get_move_with_time_limit d b t1 = get_best_move d b ∧
      minimaxEngineGetMoveWithTimeLimit d b t1 = minimaxEngineGetBestMove d b ∧
      get_move_with_time_limit d b t1 = get_move_with_time_limit d b t2 ∧
      minimaxEngineGetMoveWithTimeLimit d b t1 =
        minimaxEngineGetMoveWithTimeLimit d b t2 :=
  ⟨rfl, rfl, rfl, rfl⟩

/-- C6: For every checkmate position, `evaluate_position` returns a
White-relative score of magnitude at least 10000 signed against the side
to move: at most -10000 when White is to move (and checkmated), at least
+10000 when Black is. -/
theorem C6_checkmate_eval (p : Position) (h : isCheckmateP p = true) :
    (p.turn = true → evaluate_position p ≤ -10000) ∧
    (p.turn = false → 10000 ≤ evaluate_position p) := by
  unfold evaluate_position
  rw [h]
  constructor
  · intro ht; rw [ht]; simp
  · intro ht; rw [ht]; simp

/-- Witness for C6 at the spec's Fool's-Mate fixture (White to move,
checkmated): the score is at most -10000, in particular below -5000. -/
theorem C6_checkmate_eval_witness :
    isCheckmateP foolsPos = true ∧ foolsPos.turn = true ∧
      evaluate_position foolsPos ≤ -10000 ∧ evaluate_position foolsPos < -5000 := by
  have h : isCheckmateP foolsPos = true := by decide
  have ht : foolsPos.turn = true := by decide
  have hle := (C6_checkmate_eval foolsPos h).1 ht
  exact ⟨h, ht, hle, by omega⟩

/-- C2 counterexample: in the position after 1. e4 (Black to move, not a
terminal position), the code's evaluation is -80 while the claimed
formula — material + (White-move-count - Black-move-count) * 10 + centre
control — gives 120: the mobility term is counted for the side to move,
not for White. -/
theorem C2_black_to_move_mobility_sign :
    isCheckmateP e4Pos = false ∧ isStalemateP e4Pos = false ∧
      isInsufficientMaterialP e4Pos = false ∧
      evaluate_position e4Pos = -80 ∧ specEvalWhiteMinusBlack e4Pos = 120 ∧
      evaluate_position e4Pos ≠ specEvalWhiteMinusBlack e4Pos := by
  refine ⟨by decide, by decide, by decide, by decide, by decide, by decide⟩

/-- C2 (amended): for non-terminal positions the evaluation is material
plus centre control plus mobility counted RELATIVE TO THE SIDE TO MOVE:
(legal-move-count(side to move) - legal-move-count(opponent)) * 10.
With White to move this coincides with the claimed White-minus-Black
term; with Black to move the sign is flipped. -/
theorem C2_eval_formula (p : Position)
    (h1 : isCheckmateP p = false) (h2 : isStalemateP p = false)
    (h3 : isInsufficientMaterialP p = false) :
    evaluate_position p =
      materialScore p +
        (colorMobility p p.turn - colorMobility p (!p.turn)) * 10 +
        centerScore p := by
  unfold evaluate_position evaluatePositionalFactors mobilityScore colorMobility
  rw [h1, h2, h3]
  simp
  ring

/-- Witness for C2's amended formula at the position after 1. e4. -/
theorem C2_eval_formula_witness :
    evaluate_position e4Pos =
      materialScore e4Pos +
        (colorMobility e4Pos e4Pos.turn - colorMobility e4Pos (!e4Pos.turn)) * 10 +
        centerScore e4Pos :=
  C2_eval_formula e4Pos (by decide) (by decide) (by decide)

/-! ## The MinimaxEngine variant never applies moves -/

theorem foldl_emax_const_keep {α : Type} (v : Int) :
    ∀ xs : List α,
      xs.foldl (fun acc _ => emax acc (EScore.fin v)) (EScore.fin v) = EScore.fin v := by
  intro xs
  induction xs with
  | nil => rfl
  | cons x xs ih =>
    have : emax (EScore.fin v) (EScore.fin v) = EScore.fin v :=
      emax_eq_left (elt_irrefl _)
    simpa [this] using ih

theorem foldl_emax_const {α : Type} (v : Int) :
    ∀ xs : List α, xs ≠ [] →
      xs.foldl (fun acc _ => emax acc (EScore.fin v)) EScore.minf = EScore.fin v := by
  intro xs hne
  cases xs with
  | nil => exact absurd rfl hne
  | cons x xs =>
    have h0 : emax EScore.minf (EScore.fin v) = EScore.fin v := emax_minf _
    simpa [h0] using foldl_emax_const_keep v xs

theorem foldl_emin_const_keep {α : Type} (v : Int) :
    ∀ xs : List α,
      xs.foldl (fun acc _ => emin acc (EScore.fin v)) (EScore.fin v) = EScore.fin v := by
  intro xs
  induction xs with
  | nil => rfl
  | cons x xs ih =>
    have : emin (EScore.fin v) (EScore.fin v) = EScore.fin v :=
      emin_eq_left (elt_irrefl _)
    simpa [this] using ih

theorem foldl_emin_const {α : Type} (v : Int) :
    ∀ xs : List α, xs ≠ [] →
      xs.foldl (fun acc _ => emin acc (EScore.fin v)) EScore.pinf = EScore.fin v := by
  intro xs hne
  cases xs with
  | nil => exact absurd rfl hne
  | cons x xs =>
    have h0 : emin EScore.pinf (EScore.fin v) = EScore.fin v := emin_pinf _
    simpa [h0] using foldl_emin_const_keep v xs

/-- With at least one legal move, `maxi`/`mini` collapse to the static
evaluation of the unchanged board at every depth: no move is ever
applied, so every branch sees the same position. -/
theorem minimaxEngine_const (b : ChessBoard) (hne : b.legal_moves ≠ []) :
    ∀ e, minimaxEngineMaxi e b = EScore.fin (minimaxEngineEvaluate b) ∧
      minimaxEngineMini e b = EScore.fin (minimaxEngineEvaluate b) := by
  intro e
  induction e with
  | zero => exact ⟨rfl, rfl⟩
  | succ e ih =>
    constructor
    · rw [minimaxEngineMaxi]
      rw [ih.2]
      exact foldl_emax_const _ _ hne
    · rw [minimaxEngineMini]
      rw [ih.1]
      exact foldl_emin_const _ _ hne

theorem minimaxEngineLoop_keep {b : ChessBoard} {d : Nat} {v : Int}
    (hs : minimaxEngineMaxi (d - 1) b = EScore.fin v) :
    ∀ (ss : List String) (best : Option String),
      minimaxEngineLoop b d ss (EScore.fin v) best = best := by
  intro ss
  induction ss with
  | nil => intro best; rfl
  | cons s ss ih =>
    intro best
    rw [minimaxEngineLoop, hs]
    rw [if_neg (by rw [elt_irrefl]; exact Bool.false_ne_true)]
    exact ih best

/-- C10: `MinimaxEngine.maxi`/`mini` iterate over the legal moves of the
UNCHANGED board (no move is ever applied), so every branch evaluates to
the same static score; consequently, for depth at least 1,
`get_best_move` returns the head of the board's legal-move enumeration
(and `none` exactly when no legal move exists). -/
theorem C10_first_legal_move (d : Nat) (b : ChessBoard) (_hd : 1 ≤ d) :
    minimaxEngineGetBestMove d b = b.legal_moves.head? ∧
      (b.legal_moves ≠ [] →
        ∀ e, minimaxEngineMaxi e b = EScore.fin (minimaxEngineEvaluate b)) := by
  constructor
  · cases hl : b.legal_moves with
    | nil =>
      unfold minimaxEngineGetBestMove
      rw [hl]
      rfl
    | cons s ss =>
      have hne : b.legal_moves ≠ [] := by rw [hl]; exact List.cons_ne_nil s ss
      have hmv := (minimaxEngine_const b hne (d - 1)).1
      unfold minimaxEngineGetBestMove
      rw [hl, minimaxEngineLoop, hmv]
      rw [if_pos (by rfl)]
      rw [minimaxEngineLoop_keep hmv ss (some s)]
      rfl
  · intro hne e
    exact (minimaxEngine_const b hne e).1

/-- Witness for C10: on the start position at depth 1, the engine picks
the first enumerated legal move. -/
theorem C10_first_legal_move_witness :
    minimaxEngineGetBestMove 1 (mkBoard startPosition) = some "b1c3" := by
  rw [(C10_first_legal_move 1 (mkBoard startPosition) (le_refl 1)).1]
  decide

/-! ## Search results are legal moves -/

/-- A position that is not game over has at least one legal move (no
legal moves would mean checkmate or stalemate). -/
theorem legal_nonempty_of_not_gameover {b : ChessBoard}
    (h : isGameOverB b = false) : legalMovesP b.pos ≠ [] := by
  intro he
  unfold isGameOverB at h
  have hA := Bool.or_eq_false_iff.mp h
  have hB := Bool.or_eq_false_iff.mp hA.1
  have hC := Bool.or_eq_false_iff.mp hB.1
  have hD := Bool.or_eq_false_iff.mp hC.1
  have h1 := hD.1
  have h3 := hC.2
  unfold isCheckmateP at h1
  unfold isStalemateP at h3
  rw [he] at h1 h3
  simp at h1 h3
  rw [h1] at h3
  exact Bool.false_ne_true h3

theorem abMaxLoop_mem (child : Move → EScore → EScore → EScore) :
    ∀ (ms : List Move) (a bt acc : EScore) (best : Option Move) (m : Move),
      (abMaxLoop child ms a bt acc best).2 = some m → best = some m ∨ m ∈ ms := by
  intro ms
  induction ms with
  | nil => intro a bt acc best m h; exact Or.inl h
  | cons m0 ms ih =>
    intro a bt acc best m h
    rw [abMaxLoop] at h
    by_cases hcut : ele bt (emax a (child m0 a bt)) = true
    · rw [if_pos hcut] at h
      by_cases hup : elt acc (child m0 a bt) = true
      · simp only [hup, if_true] at h
        cases Option.some.inj h
        exact Or.inr (List.mem_cons_self _ _)
      · simp only [eq_false_of_ne_true hup, if_false] at h
        exact Or.inl h
    · rw [if_neg hcut] at h
      rcases ih _ _ _ _ _ h with hb | hm
      · by_cases hup : elt acc (child m0 a bt) = true
        · simp only [hup, if_true] at hb
          cases Option.some.inj hb
          exact Or.inr (List.mem_cons_self _ _)
        · simp only [eq_false_of_ne_true hup, if_false] at hb
          exact Or.inl hb
      · exact Or.inr (List.mem_cons_of_mem m0 hm)

theorem abMinLoop_mem (child : Move → EScore → EScore → EScore) :
    ∀ (ms : List Move) (a bt acc : EScore) (best : Option Move) (m : Move),
      (abMinLoop child ms a bt acc best).2 = some m → best = some m ∨ m ∈ ms := by
  intro ms
  induction ms with
  | nil => intro a bt acc best m h; exact Or.inl h
  | cons m0 ms ih =>
    intro a bt acc best m h
    rw [abMinLoop] at h
    by_cases hcut : ele (emin bt (child m0 a bt)) a = true
    · rw [if_pos hcut] at h
      by_cases hup : elt (child m0 a bt) acc = true
      · simp only [hup, if_true] at h
        cases Option.some.inj h
        exact Or.inr (List.mem_cons_self _ _)
      · simp only [eq_false_of_ne_true hup, if_false] at h
        exact Or.inl h
    · rw [if_neg hcut] at h
      rcases ih _ _ _ _ _ h with hb | hm
      · by_cases hup : elt (child m0 a bt) acc = true
        · simp only [hup, if_true] at hb
          cases Option.some.inj hb
          exact Or.inr (List.mem_cons_self _ _)
        · simp only [eq_false_of_ne_true hup, if_false] at hb
          exact Or.inl hb
      · exact Or.inr (List.mem_cons_of_mem m0 hm)

/-- Whenever `minimax` reports a best move, that move is one of the
position's legal moves. -/
theorem minimax_best_mem :
    ∀ (d : Nat) (b : ChessBoard) (a bt : EScore) (mx : Bool) (m : Move),
      (minimax d b a bt mx).2 = some m → m ∈ legalMovesP b.pos := by
  intro d b a bt mx m h
  cases d with
  | zero => exact absurd h (by simp [minimax])
  | succ d =>
    rw [minimax] at h
    by_cases hg : isGameOverB b = true
    · rw [if_pos hg] at h
      exact absurd h (by simp)
    · rw [if_neg hg] at h
      cases hmx : mx with
      | true =>
        rw [hmx] at h
        simp only [if_true] at h
        rcases abMaxLoop_mem _ _ _ _ _ _ _ h with hb | hm
        · exact absurd hb.symm (by simp)
        · exact hm
      | false =>
        rw [hmx] at h
        simp only [Bool.false_eq_true, if_false] at h
        rcases abMinLoop_mem _ _ _ _ _ _ _ h with hb | hm
        · exact absurd hb.symm (by simp)
        · exact hm

/-- C4 counterexample: with two lone kings the position still has legal
moves, but `is_game_over()` is true (insufficient material) and
`get_best_move` returns None — the claim "≥1 legal move implies a
non-None result" fails. -/
theorem C4_lone_kings_none :
    (mkBoard kkPos).legal_moves ≠ [] ∧ isInsufficientMaterialP kkPos = true ∧
      get_best_move 3 (mkBoard kkPos) = none := by
  refine ⟨by decide, by decide, by decide⟩

/-- C4 (amended): for every position that is NOT game over (game over
includes automatic draws such as insufficient material, which can still
have legal moves), `get_best_move` returns a move that is a member of
the position's legal moves; when the minimax bookkeeping yields no move
(e.g. at depth 0) the fallback picks a legal move rather than None. -/
theorem C4_search_returns_legal (d : Nat) (b : ChessBoard)
    (h : isGameOverB b = false) :
    ∃ s, get_best_move d b = some s ∧ s ∈ b.legal_moves := by
  have hne := legal_nonempty_of_not_gameover h
  unfold get_best_move
  rw [h]
  simp only [Bool.false_eq_true, if_false]
  cases hbm : (minimax d b EScore.minf EScore.pinf b.pos.turn).2 with
  | some m =>
    refine ⟨uciOfMove m, rfl, ?_⟩
    exact List.mem_map_of_mem uciOfMove (minimax_best_mem d b _ _ _ m hbm)
  | none =>
    cases hl : legalMovesP b.pos with
    | nil => exact absurd hl hne
    | cons m ms =>
      refine ⟨uciOfMove m, rfl, ?_⟩
      unfold ChessBoard.legal_moves
      rw [hl]
      exact List.mem_map_of_mem uciOfMove (List.mem_cons_self m ms)

/-- Witness for C4: king+queen versus king is not game over; at depth 0
the minimax bookkeeping returns no move and the fallback still yields a
legal move. -/
theorem C4_search_returns_legal_witness :
    ∃ s, get_best_move 0 (mkBoard kqkPos) = some s ∧
      s ∈ (mkBoard kqkPos).legal_moves :=
  C4_search_returns_legal 0 (mkBoard kqkPos) (by decide)

/-! ## Alpha-beta pruning returns the unpruned minimax result -/

theorem elt_emax_intro {c x y : EScore} (hx : elt x c = true) (hy : elt y c = true) :
    elt (emax x y) c = true := by
  unfold emax
  by_cases h : elt x y = true <;> simp [h, hx, hy]

theorem elt_emin_intro {c x y : EScore} (hx : elt c x = true) (hy : elt c y = true) :
    elt c (emin x y) = true := by
  unfold emin
  by_cases h : elt y x = true <;> simp [h, hx, hy]

theorem npMaxLoop_cons (g : Move → EScore) (m : Move) (ms : List Move)
    (acc : EScore) (best : Option Move) :
    npMaxLoop g (m :: ms) acc best =
      npMaxLoop g ms (emax acc (g m)) (if elt acc (g m) then some m else best) := by
  rw [npMaxLoop]
  by_cases h : elt acc (g m) = true
  · rw [if_pos h, if_pos h, emax_eq_right h]
  · rw [if_neg h, if_neg h, emax_eq_left (eq_false_of_ne_true h)]

theorem npMinLoop_cons (g : Move → EScore) (m : Move) (ms : List Move)
    (acc : EScore) (best : Option Move) :
    npMinLoop g (m :: ms) acc best =
      npMinLoop g ms (emin acc (g m)) (if elt (g m) acc then some m else best) := by
  rw [npMinLoop]
  by_cases h : elt (g m) acc = true
  · rw [if_pos h, if_pos h, emin_eq_right h]
  · rw [if_neg h, if_neg h, emin_eq_left (eq_false_of_ne_true h)]

theorem npMaxLoop_val (g : Move → EScore) :
    ∀ (ms : List Move) (acc : EScore) (best : Option Move),
      (npMaxLoop g ms acc best).1 = foldMax g ms acc := by
  intro ms
  induction ms with
  | nil => intro acc best; rfl
  | cons m ms ih =>
    intro acc best
    rw [npMaxLoop_cons, ih]
    rfl

theorem npMinLoop_val (g : Move → EScore) :
    ∀ (ms : List Move) (acc : EScore) (best : Option Move),
      (npMinLoop g ms acc best).1 = foldMin g ms acc := by
  intro ms
  induction ms with
  | nil => intro acc best; rfl
  | cons m ms ih =>
    intro acc best
    rw [npMinLoop_cons, ih]
    rfl

theorem foldMax_cons (g : Move → EScore) (m : Move) (ms : List Move) (acc : EScore) :
    foldMax g (m :: ms) acc = foldMax g ms (emax acc (g m)) := rfl

theorem foldMin_cons (g : Move → EScore) (m : Move) (ms : List Move) (acc : EScore) :
    foldMin g (m :: ms) acc = foldMin g ms (emin acc (g m)) := rfl

theorem foldMax_decomp (g : Move → EScore) :
    ∀ (ms : List Move) (acc : EScore),
      foldMax g ms acc = emax acc (foldMax g ms EScore.minf) := by
  intro ms
  induction ms with
  | nil =>
    intro acc
    show acc = emax acc EScore.minf
    rw [emax_eq_left (elt_minf acc)]
  | cons m ms ih =>
    intro acc
    rw [foldMax_cons, foldMax_cons, ih, ih (emax EScore.minf (g m))]
    rw [emax_minf, ← emax_assoc]

theorem foldMin_decomp (g : Move → EScore) :
    ∀ (ms : List Move) (acc : EScore),
      foldMin g ms acc = emin acc (foldMin g ms EScore.pinf) := by
  intro ms
  induction ms with
  | nil =>
    intro acc
    show acc = emin acc EScore.pinf
    rw [emin_eq_left (elt_pinf acc)]
  | cons m ms ih =>
    intro acc
    rw [foldMin_cons, foldMin_cons, ih, ih (emin EScore.pinf (g m))]
    rw [emin_pinf, ← emin_assoc]

theorem foldMax_ge_init (g : Move → EScore) (ms : List Move) (acc : EScore) :
    ele acc (foldMax g ms acc) = true := by
  rw [foldMax_decomp]
  exact ele_left_emax _ _

theorem foldMin_le_init (g : Move → EScore) (ms : List Move) (acc : EScore) :
    ele (foldMin g ms acc) acc = true := by
  rw [foldMin_decomp]
  exact ele_emin_left _ _

theorem foldMax_mono (g : Move → EScore) (ms : List Move) {a1 a2 : EScore}
    (h : ele a1 a2 = true) : ele (foldMax g ms a1) (foldMax g ms a2) = true := by
  rw [foldMax_decomp, foldMax_decomp g ms a2]
  exact emax_mono_left h

theorem foldMin_mono (g : Move → EScore) (ms : List Move) {a1 a2 : EScore}
    (h : ele a1 a2 = true) : ele (foldMin g ms a1) (foldMin g ms a2) = true := by
  rw [foldMin_decomp, foldMin_decomp g ms a2]
  exact emin_mono_left h

theorem abMaxLoop_cons (f : Move → EScore → EScore → EScore) (m : Move)
    (ms : List Move) (a bt acc : EScore) (best : Option Move) :
    abMaxLoop f (m :: ms) a bt acc best =
      if ele bt (emax a (f m a bt)) = true then
        (emax acc (f m a bt), if elt acc (f m a bt) then some m else best)
      else
        abMaxLoop f ms (emax a (f m a bt)) bt (emax acc (f m a bt))
          (if elt acc (f m a bt) then some m else best) := rfl

theorem abMinLoop_cons (f : Move → EScore → EScore → EScore) (m : Move)
    (ms : List Move) (a bt acc : EScore) (best : Option Move) :
    abMinLoop f (m :: ms) a bt acc best =
      if ele (emin bt (f m a bt)) a = true then
        (emin acc (f m a bt), if elt (f m a bt) acc then some m else best)
      else
        abMinLoop f ms a (emin bt (f m a bt)) (emin acc (f m a bt))
          (if elt (f m a bt) acc then some m else best) := rfl

theorem abMaxLoop_ge_acc (f : Move → EScore → EScore → EScore) :
    ∀ (ms : List Move) (a bt acc : EScore) (best : Option Move),
      ele acc (abMaxLoop f ms a bt acc best).1 = true := by
  intro ms
  induction ms with
  | nil => intro a bt acc best; exact ele_refl acc
  | cons m ms ih =>
    intro a bt acc best
    rw [abMaxLoop_cons]
    by_cases hcut : ele bt (emax a (f m a bt)) = true
    · rw [if_pos hcut]
      exact ele_left_emax _ _
    · rw [if_neg hcut]
      exact ele_trans (ele_left_emax acc (f m a bt)) (ih _ _ _ _)

theorem abMinLoop_le_acc (f : Move → EScore → EScore → EScore) :
    ∀ (ms : List Move) (a bt acc : EScore) (best : Option Move),
      ele (abMinLoop f ms a bt acc best).1 acc = true := by
  intro ms
  induction ms with
  | nil => intro a bt acc best; exact ele_refl acc
  | cons m ms ih =>
    intro a bt acc best
    rw [abMinLoop_cons]
    by_cases hcut : ele (emin bt (f m a bt)) a = true
    · rw [if_pos hcut]
      exact ele_emin_left _ _
    · rw [if_neg hcut]
      exact ele_trans (ih _ _ _ _) (ele_emin_left acc (f m a bt))

theorem abMaxVal_cons (f : Move → EScore → EScore → EScore) (m : Move)
    (ms : List Move) (a bt acc : EScore) :
    abMaxVal f (m :: ms) a bt acc =
      if ele bt (emax a (f m a bt)) = true then emax acc (f m a bt)
      else abMaxVal f ms (emax a (f m a bt)) bt (emax acc (f m a bt)) := rfl

theorem abMinVal_cons (f : Move → EScore → EScore → EScore) (m : Move)
    (ms : List Move) (a bt acc : EScore) :
    abMinVal f (m :: ms) a bt acc =
      if ele (emin bt (f m a bt)) a = true then emin acc (f m a bt)
      else abMinVal f ms a (emin bt (f m a bt)) (emin acc (f m a bt)) := rfl

theorem abMaxLoop_val (f : Move → EScore → EScore → EScore) :
    ∀ (ms : List Move) (a bt acc : EScore) (best : Option Move),
      (abMaxLoop f ms a bt acc best).1 = abMaxVal f ms a bt acc := by
  intro ms
  induction ms with
  | nil => intro a bt acc best; rfl
  | cons m ms ih =>
    intro a bt acc best
    rw [abMaxLoop_cons, abMaxVal_cons]
    by_cases hcut : ele bt (emax a (f m a bt)) = true
    · rw [if_pos hcut, if_pos hcut]
    · rw [if_neg hcut, if_neg hcut]
      exact ih _ _ _ _

theorem abMinLoop_val (f : Move → EScore → EScore → EScore) :
    ∀ (ms : List Move) (a bt acc : EScore) (best : Option Move),
      (abMinLoop f ms a bt acc best).1 = abMinVal f ms a bt acc := by
  intro ms
  induction ms with
  | nil => intro a bt acc best; rfl
  | cons m ms ih =>
    intro a bt acc best
    rw [abMinLoop_cons, abMinVal_cons]
    by_cases hcut : ele (emin bt (f m a bt)) a = true
    · rw [if_pos hcut, if_pos hcut]
    · rw [if_neg hcut, if_neg hcut]
      exact ih _ _ _ _

theorem abMaxVal_ge_acc (f : Move → EScore → EScore → EScore) :
    ∀ (ms : List Move) (a bt acc : EScore),
      ele acc (abMaxVal f ms a bt acc) = true := by
  intro ms
  induction ms with
  | nil => intro a bt acc; exact ele_refl acc
  | cons m ms ih =>
    intro a bt acc
    rw [abMaxVal_cons]
    by_cases hcut : ele bt (emax a (f m a bt)) = true
    · rw [if_pos hcut]; exact ele_left_emax _ _
    · rw [if_neg hcut]
      exact ele_trans (ele_left_emax acc (f m a bt)) (ih _ _ _)

theorem abMinVal_le_acc (f : Move → EScore → EScore → EScore) :
    ∀ (ms : List Move) (a bt acc : EScore),
      ele (abMinVal f ms a bt acc) acc = true := by
  intro ms
  induction ms with
  | nil => intro a bt acc; exact ele_refl acc
  | cons m ms ih =>
    intro a bt acc
    rw [abMinVal_cons]
    by_cases hcut : ele (emin bt (f m a bt)) a = true
    · rw [if_pos hcut]; exact ele_emin_left _ _
    · rw [if_neg hcut]
      exact ele_trans (ih _ _ _) (ele_emin_left acc (f m a bt))

/-- Fail-soft bounds for the maximizing alpha-beta loop against the
unpruned running maximum: exact inside the open window; an upper bound
on the true value when failing low; a lower bound when failing high. -/
theorem abMaxVal_bounds {f : Move → EScore → EScore → EScore} {g : Move → EScore}
    (hrel : ChildRel f g) :
    ∀ (ms : List Move) (a bt acc : EScore),
      ele acc a = true → elt a bt = true →
      ((elt a (abMaxVal f ms a bt acc) = true →
          elt (abMaxVal f ms a bt acc) bt = true →
          abMaxVal f ms a bt acc = foldMax g ms acc) ∧
       (ele (abMaxVal f ms a bt acc) a = true →
          ele (foldMax g ms acc) (abMaxVal f ms a bt acc) = true) ∧
       (ele bt (abMaxVal f ms a bt acc) = true →
          ele (abMaxVal f ms a bt acc) (foldMax g ms acc) = true)) := by
  intro ms
  induction ms with
  | nil =>
    intro a bt acc hacc hab
    refine ⟨?_, ?_, ?_⟩ <;> simp only [abMaxVal, foldMax, List.foldl_nil]
    · intro h1 _
      rw [ele_iff] at hacc
      rw [hacc] at h1
      exact absurd h1 Bool.false_ne_true
    · intro _
      exact ele_refl acc
    · intro _
      exact ele_refl acc
  | cons m ms ih =>
    intro a bt acc hacc hab
    have hrel0 := hrel m a bt hab
    rw [abMaxVal_cons, foldMax_cons]
    set r := f m a bt with hr
    set t := g m with ht
    by_cases hcut : ele bt (emax a r) = true
    · rw [if_pos hcut]
      have har : elt a r = true := by
        by_contra hne
        rw [emax_eq_left (eq_false_of_ne_true hne)] at hcut
        rw [ele_iff] at hcut
        rw [hcut] at hab
        exact Bool.false_ne_true hab
      have hbr : ele bt r = true := by rwa [emax_eq_right har] at hcut
      have hrt : ele r t = true := hrel0.2.2 hbr
      have hval : emax acc r = r := emax_eq_right (elt_of_ele_of_elt hacc har)
      rw [hval]
      refine ⟨?_, ?_, ?_⟩
      · intro _ h2
        rw [ele_iff] at hbr
        rw [hbr] at h2
        exact absurd h2 Bool.false_ne_true
      · intro h1
        rw [ele_iff] at h1
        rw [h1] at har
        exact absurd har Bool.false_ne_true
      · intro _
        exact ele_trans hrt (ele_trans (ele_right_emax acc t) (foldMax_ge_init g ms _))
    · rw [if_neg hcut]
      have hwin2 : elt (emax a r) bt = true := by
        have h0 := eq_false_of_ne_true hcut
        unfold ele at h0
        simpa using h0
      by_cases hra : ele r a = true
      · -- the child failed low: its value is at most alpha
        have htr : ele t r = true := hrel0.2.1 hra
        have hEa : emax a r = a := emax_eq_left (ele_iff.mp hra)
        rw [hEa]
        have hinv : ele (emax acc r) a = true := emax_le hacc hra
        have hih := ih a bt (emax acc r) hinv hab
        have hta : ele t a = true := ele_trans htr hra
        have hw : ele (foldMax g ms (emax acc t)) (foldMax g ms (emax acc r)) = true :=
          foldMax_mono g ms (emax_mono_right htr)
        refine ⟨?_, ?_, ?_⟩
        · intro h1 h2
          have hveq := hih.1 h1 h2
          rw [hveq]
          rw [hveq] at h1
          rw [foldMax_decomp] at h1 ⊢
          rw [foldMax_decomp g ms (emax acc t)]
          have hx1 : elt (emax acc r)
              (emax (emax acc r) (foldMax g ms EScore.minf)) = true :=
            elt_of_ele_of_elt hinv h1
          have hM : emax (emax acc r) (foldMax g ms EScore.minf) =
              foldMax g ms EScore.minf := emax_right_of_elt hx1
          rw [hM]
          rw [hM] at h1
          have hy : elt (emax acc t) (foldMax g ms EScore.minf) = true :=
            elt_of_ele_of_elt (emax_le hacc hta) h1
          rw [emax_eq_right hy]
        · intro h1
          exact ele_trans hw (hih.2.1 h1)
        · intro h1
          have hvw2 := hih.2.2 h1
          have hav : elt a (abMaxVal f ms a bt (emax acc r)) = true :=
            elt_of_elt_of_ele hab h1
          rw [foldMax_decomp] at hvw2
          have hx : elt (emax acc r) (abMaxVal f ms a bt (emax acc r)) = true :=
            elt_of_ele_of_elt hinv hav
          have hvM : ele (abMaxVal f ms a bt (emax acc r))
              (foldMax g ms EScore.minf) = true := ele_emax_split hvw2 hx
          rw [foldMax_decomp g ms (emax acc t)]
          exact ele_trans hvM (ele_right_emax _ _)
      · -- the child strictly raised alpha: its value is exact
        have har : elt a r = true := by
          have h0 := eq_false_of_ne_true hra
          unfold ele at h0
          simpa using h0
        have hEr : emax a r = r := emax_eq_right har
        rw [hEr] at hwin2
        rw [hEr]
        have hrteq : r = t := hrel0.1 har hwin2
        have haccr : elt acc r = true := elt_of_ele_of_elt hacc har
        have hAr : emax acc r = r := emax_eq_right haccr
        rw [hAr]
        have hwr : emax acc t = r := by rw [← hrteq]; exact hAr
        rw [hwr]
        have hih := ih r bt r (ele_refl r) hwin2
        have hvr : ele r (abMaxVal f ms r bt r) = true := abMaxVal_ge_acc f ms r bt r
        refine ⟨?_, ?_, ?_⟩
        · intro _ h2
          by_cases hrv : elt r (abMaxVal f ms r bt r) = true
          · exact hih.1 hrv h2
          · have hvr2 : ele (abMaxVal f ms r bt r) r = true := by
              unfold ele
              simpa using eq_false_of_ne_true hrv
            have hveq : abMaxVal f ms r bt r = r := ele_antisymm hvr2 hvr
            have hwlev := hih.2.1 hvr2
            have hrw : ele r (foldMax g ms r) = true := foldMax_ge_init g ms r
            rw [hveq]
            have hwlev2 : ele (foldMax g ms r) r = true := by
              rw [hveq] at hwlev
              exact hwlev
            exact ele_antisymm hrw hwlev2
        · intro h1
          have hcontra : elt a (abMaxVal f ms r bt r) = true :=
            elt_of_elt_of_ele har hvr
          rw [ele_iff] at h1
          rw [h1] at hcontra
          exact absurd hcontra Bool.false_ne_true
        · intro h1
          exact hih.2.2 h1

/-- Fail-soft bounds for the minimizing alpha-beta loop against the
unpruned running minimum. -/
theorem abMinVal_bounds {f : Move → EScore → EScore → EScore} {g : Move → EScore}
    (hrel : ChildRel f g) :
    ∀ (ms : List Move) (a bt acc : EScore),
      ele bt acc = true → elt a bt = true →
      ((elt a (abMinVal f ms a bt acc) = true →
          elt (abMinVal f ms a bt acc) bt = true →
          abMinVal f ms a bt acc = foldMin g ms acc) ∧
       (ele (abMinVal f ms a bt acc) a = true →
          ele (foldMin g ms acc) (abMinVal f ms a bt acc) = true) ∧
       (ele bt (abMinVal f ms a bt acc) = true →
          ele (abMinVal f ms a bt acc) (foldMin g ms acc) = true)) := by
  intro ms
  induction ms with
  | nil =>
    intro a bt acc hbcc hab
    refine ⟨?_, ?_, ?_⟩ <;> simp only [abMinVal, foldMin, List.foldl_nil]
    · intro _ h2
      rw [ele_iff] at hbcc
      rw [hbcc] at h2
      exact absurd h2 Bool.false_ne_true
    · intro _
      exact ele_refl acc
    · intro _
      exact ele_refl acc
  | cons m ms ih =>
    intro a bt acc hbcc hab
    have hrel0 := hrel m a bt hab
    rw [abMinVal_cons, foldMin_cons]
    set r := f m a bt with hr
    set t := g m with ht
    by_cases hcut : ele (emin bt r) a = true
    · rw [if_pos hcut]
      have hrb : elt r bt = true := by
        by_contra hne
        rw [emin_eq_left (eq_false_of_ne_true hne)] at hcut
        rw [ele_iff] at hcut
        rw [hcut] at hab
        exact Bool.false_ne_true hab
      have hcut2 : ele r a = true := by rwa [emin_eq_right hrb] at hcut
      have htr : ele t r = true := hrel0.2.1 hcut2
      have hval : emin acc r = r := emin_eq_right (elt_of_elt_of_ele hrb hbcc)
      rw [hval]
      refine ⟨?_, ?_, ?_⟩
      · intro h1 _
        rw [ele_iff] at hcut2
        rw [hcut2] at h1
        exact absurd h1 Bool.false_ne_true
      · intro _
        exact ele_trans (foldMin_le_init g ms _) (ele_trans (ele_emin_right acc t) htr)
      · intro h1
        rw [ele_iff] at h1
        rw [h1] at hrb
        exact absurd hrb Bool.false_ne_true
    · rw [if_neg hcut]
      have hwin2 : elt a (emin bt r) = true := by
        have h0 := eq_false_of_ne_true hcut
        unfold ele at h0
        simpa using h0
      by_cases hbr : ele bt r = true
      · -- the child failed high: its value is at least beta
        have htr : ele r t = true := hrel0.2.2 hbr
        have hEb : emin bt r = bt := emin_eq_left (ele_iff.mp hbr)
        rw [hEb]
        have hinv : ele bt (emin acc r) = true := emin_le hbcc hbr
        have hih := ih a bt (emin acc r) hinv hab
        have hbt_t : ele bt t = true := ele_trans hbr htr
        have hw : ele (foldMin g ms (emin acc r)) (foldMin g ms (emin acc t)) = true :=
          foldMin_mono g ms (emin_mono_right htr)
        refine ⟨?_, ?_, ?_⟩
        · intro h1 h2
          have hveq := hih.1 h1 h2
          rw [hveq]
          rw [hveq] at h2
          rw [foldMin_decomp] at h2 ⊢
          rw [foldMin_decomp g ms (emin acc t)]
          have hx1 : elt (emin (emin acc r) (foldMin g ms EScore.pinf))
              (emin acc r) = true := elt_of_elt_of_ele h2 hinv
          have hM : emin (emin acc r) (foldMin g ms EScore.pinf) =
              foldMin g ms EScore.pinf := emin_right_of_elt hx1
          rw [hM]
          rw [hM] at h2
          have hy : elt (foldMin g ms EScore.pinf) (emin acc t) = true :=
            elt_of_elt_of_ele h2 (emin_le hbcc hbt_t)
          rw [emin_eq_right hy]
        · intro h1
          have hvw2 := hih.2.1 h1
          have hvbt : elt (abMinVal f ms a bt (emin acc r)) bt = true :=
            elt_of_ele_of_elt h1 hab
          have hvaccr : elt (abMinVal f ms a bt (emin acc r)) (emin acc r) = true :=
            elt_of_elt_of_ele hvbt hinv
          rw [foldMin_decomp] at hvw2
          have hMv : ele (foldMin g ms EScore.pinf)
              (abMinVal f ms a bt (emin acc r)) = true :=
            ele_emin_split hvw2 hvaccr
          rw [foldMin_decomp g ms (emin acc t)]
          exact ele_trans (ele_emin_right _ _) hMv
        · intro h1
          exact ele_trans (hih.2.2 h1) hw
      · -- the child strictly lowered beta: its value is exact
        have hrb : elt r bt = true := by
          have h0 := eq_false_of_ne_true hbr
          unfold ele at h0
          simpa using h0
        have hEb : emin bt r = r := emin_eq_right hrb
        rw [hEb] at hwin2
        rw [hEb]
        have hrteq : r = t := hrel0.1 hwin2 hrb
        have hraccr : elt r acc = true := elt_of_elt_of_ele hrb hbcc
        have hAr : emin acc r = r := emin_eq_right hraccr
        rw [hAr]
        have hwr : emin acc t = r := by rw [← hrteq]; exact hAr
        rw [hwr]
        have hih := ih a r r (ele_refl r) hwin2
        have hvr : ele (abMinVal f ms a r r) r = true := abMinVal_le_acc f ms a r r
        refine ⟨?_, ?_, ?_⟩
        · intro h1 _
          by_cases hrv : elt (abMinVal f ms a r r) r = true
          · exact hih.1 h1 hrv
          · have hvr2 : ele r (abMinVal f ms a r r) = true := by
              unfold ele
              simpa using eq_false_of_ne_true hrv
            have hveq : abMinVal f ms a r r = r := ele_antisymm hvr hvr2
            have hwgev := hih.2.2 hvr2
            have hrw : ele (foldMin g ms r) r = true := foldMin_le_init g ms r
            rw [hveq]
            have hwgev2 : ele r (foldMin g ms r) = true := by
              rw [hveq] at hwgev
              exact hwgev
            exact ele_antisymm hwgev2 hrw
        · intro h1
          exact hih.2.1 h1
        · intro h1
          have hcontra : elt (abMinVal f ms a r r) bt = true :=
            elt_of_ele_of_elt hvr hrb
          rw [ele_iff] at h1
          rw [h1] at hcontra
          exact absurd hcontra Bool.false_ne_true

theorem isFin_emax {r acc : EScore} (hr : isFin r = true)
    (hacc : isFin acc = true ∨ acc = EScore.minf) : isFin (emax acc r) = true := by
  cases acc <;> cases r <;>
    simp_all [isFin, emax, elt] <;> split_ifs <;> simp_all [isFin]

theorem isFin_emin {r acc : EScore} (hr : isFin r = true)
    (hacc : isFin acc = true ∨ acc = EScore.pinf) : isFin (emin acc r) = true := by
  cases acc <;> cases r <;>
    simp_all [isFin, emin, elt] <;> split_ifs <;> simp_all [isFin]

theorem abMaxVal_fin {f : Move → EScore → EScore → EScore}
    (hf : ∀ m a2 b2, isFin (f m a2 b2) = true) :
    ∀ (ms : List Move) (a bt acc : EScore),
      (isFin acc = true ∨ (acc = EScore.minf ∧ ms ≠ [])) →
      isFin (abMaxVal f ms a bt acc) = true := by
  intro ms
  induction ms with
  | nil =>
    intro a bt acc hacc
    rcases hacc with h | ⟨_, hne⟩
    · exact h
    · exact absurd rfl hne
  | cons m ms ih =>
    intro a bt acc hacc
    rw [abMaxVal_cons]
    have hacc2 : isFin (emax acc (f m a bt)) = true :=
      isFin_emax (hf m a bt)
        (by rcases hacc with h | ⟨h, _⟩
            · exact Or.inl h
            · exact Or.inr h)
    by_cases hcut : ele bt (emax a (f m a bt)) = true
    · rw [if_pos hcut]; exact hacc2
    · rw [if_neg hcut]; exact ih _ _ _ (Or.inl hacc2)

theorem abMinVal_fin {f : Move → EScore → EScore → EScore}
    (hf : ∀ m a2 b2, isFin (f m a2 b2) = true) :
    ∀ (ms : List Move) (a bt acc : EScore),
      (isFin acc = true ∨ (acc = EScore.pinf ∧ ms ≠ [])) →
      isFin (abMinVal f ms a bt acc) = true := by
  intro ms
  induction ms with
  | nil =>
    intro a bt acc hacc
    rcases hacc with h | ⟨_, hne⟩
    · exact h
    · exact absurd rfl hne
  | cons m ms ih =>
    intro a bt acc hacc
    rw [abMinVal_cons]
    have hacc2 : isFin (emin acc (f m a bt)) = true :=
      isFin_emin (hf m a bt)
        (by rcases hacc with h | ⟨h, _⟩
            · exact Or.inl h
            · exact Or.inr h)
    by_cases hcut : ele (emin bt (f m a bt)) a = true
    · rw [if_pos hcut]; exact hacc2
    · rw [if_neg hcut]; exact ih _ _ _ (Or.inl hacc2)

/-- Every score returned by the repository's alpha-beta minimax is an
actual integer (never an infinity sentinel): at leaves it is an
evaluation, at interior nodes a position that is not game over has at
least one legal move. -/
theorem minimax_isFin : ∀ (d : Nat) (b : ChessBoard) (a bt : EScore) (mx : Bool),
    isFin (minimax d b a bt mx).1 = true := by
  intro d
  induction d with
  | zero => intro b a bt mx; rfl
  | succ d ih =>
    intro b a bt mx
    rw [minimax]
    by_cases hg : isGameOverB b = true
    · rw [if_pos hg]; rfl
    · rw [if_neg hg]
      have hne : legalMovesP b.pos ≠ [] :=
        legal_nonempty_of_not_gameover (eq_false_of_ne_true hg)
      cases mx with
      | true =>
        simp only [if_true]
        rw [abMaxLoop_val]
        exact abMaxVal_fin (fun m a2 b2 => ih (pushB b m) a2 b2 false) _ _ _ _
          (Or.inr ⟨rfl, hne⟩)
      | false =>
        simp only [Bool.false_eq_true, if_false]
        rw [abMinLoop_val]
        exact abMinVal_fin (fun m a2 b2 => ih (pushB b m) a2 b2 true) _ _ _ _
          (Or.inr ⟨rfl, hne⟩)

/-- The alpha-beta search satisfies the fail-soft bounds against the
unpruned minimax at every depth and window. -/
theorem minimax_bounds : ∀ (d : Nat) (b : ChessBoard) (a bt : EScore) (mx : Bool),
    elt a bt = true →
    ((elt a (minimax d b a bt mx).1 = true →
        elt (minimax d b a bt mx).1 bt = true →
        (minimax d b a bt mx).1 = (minimaxNP d b mx).1) ∧
     (ele (minimax d b a bt mx).1 a = true →
        ele (minimaxNP d b mx).1 (minimax d b a bt mx).1 = true) ∧
     (ele bt (minimax d b a bt mx).1 = true →
        ele (minimax d b a bt mx).1 (minimaxNP d b mx).1 = true)) := by
  intro d
  induction d with
  | zero =>
    intro b a bt mx _
    exact ⟨fun _ _ => rfl, fun _ => ele_refl _, fun _ => ele_refl _⟩
  | succ d ih =>
    intro b a bt mx hab
    by_cases hg : isGameOverB b = true
    · rw [minimax, minimaxNP, if_pos hg, if_pos hg]
      exact ⟨fun _ _ => rfl, fun _ => ele_refl _, fun _ => ele_refl _⟩
    · have hrel : ChildRel (fun m a2 b2 => (minimax d (pushB b m) a2 b2 false).1)
          (fun m => (minimaxNP d (pushB b m) false).1) :=
        fun m a2 b2 hab2 => ih (pushB b m) a2 b2 false hab2
      have hrelT : ChildRel (fun m a2 b2 => (minimax d (pushB b m) a2 b2 true).1)
          (fun m => (minimaxNP d (pushB b m) true).1) :=
        fun m a2 b2 hab2 => ih (pushB b m) a2 b2 true hab2
      cases mx with
      | true =>
        have hLv : (minimax (d + 1) b a bt true).1 =
            abMaxVal (fun m a2 b2 => (minimax d (pushB b m) a2 b2 false).1)
              (legalMovesP b.pos) a bt EScore.minf := by
          rw [minimax, if_neg hg]
          simp only [if_true]
          exact abMaxLoop_val _ _ _ _ _ _
        have hRv : (minimaxNP (d + 1) b true).1 =
            foldMax (fun m => (minimaxNP d (pushB b m) false).1)
              (legalMovesP b.pos) EScore.minf := by
          rw [minimaxNP, if_neg hg]
          simp only [if_true]
          exact npMaxLoop_val _ _ _ _
        rw [hLv, hRv]
        exact abMaxVal_bounds hrel (legalMovesP b.pos) a bt EScore.minf
          (ele_minf a) hab
      | false =>
        have hLv : (minimax (d + 1) b a bt false).1 =
            abMinVal (fun m a2 b2 => (minimax d (pushB b m) a2 b2 true).1)
              (legalMovesP b.pos) a bt EScore.pinf := by
          rw [minimax, if_neg hg]
          simp only [Bool.false_eq_true, if_false]
          exact abMinLoop_val _ _ _ _ _ _
        have hRv : (minimaxNP (d + 1) b false).1 =
            foldMin (fun m => (minimaxNP d (pushB b m) true).1)
              (legalMovesP b.pos) EScore.pinf := by
          rw [minimaxNP, if_neg hg]
          simp only [Bool.false_eq_true, if_false]
          exact npMinLoop_val _ _ _ _
        rw [hLv, hRv]
        exact abMinVal_bounds hrelT (legalMovesP b.pos) a bt EScore.pinf
          (ele_pinf bt) hab

theorem elt_pinf_of_fin {r : EScore} (h : isFin r = true) :
    elt r EScore.pinf = true := by
  cases r <;> simp_all [isFin, elt]

theorem elt_minf_of_fin {r : EScore} (h : isFin r = true) :
    elt EScore.minf r = true := by
  cases r <;> simp_all [isFin, elt]

/-- At the root the maximizer's window never closes (beta stays +inf and
alpha stays below it), the running alpha coincides with the running best
score, and each strict improvement is an exact child value — so the
pruned loop and the unpruned loop return the SAME (score, move) pair. -/
theorem abMaxLoop_root {f : Move → EScore → EScore → EScore} {g : Move → EScore}
    (hrel : ChildRel f g) (hf : ∀ m a2 b2, isFin (f m a2 b2) = true) :
    ∀ (ms : List Move) (acc : EScore) (best : Option Move),
      (isFin acc = true ∨ acc = EScore.minf) →
      abMaxLoop f ms acc EScore.pinf acc best = npMaxLoop g ms acc best := by
  intro ms
  induction ms with
  | nil => intro acc best _; rfl
  | cons m ms ih =>
    intro acc best hacc
    rw [abMaxLoop_cons, npMaxLoop_cons]
    have haccp : elt acc EScore.pinf = true := by
      rcases hacc with h | h
      · exact elt_pinf_of_fin h
      · rw [h]; simp [elt]
    have hrel0 := hrel m acc EScore.pinf haccp
    have hrfin : isFin (f m acc EScore.pinf) = true := hf m acc EScore.pinf
    have hrp : elt (f m acc EScore.pinf) EScore.pinf = true := elt_pinf_of_fin hrfin
    have hmaxfin : isFin (emax acc (f m acc EScore.pinf)) = true :=
      isFin_emax hrfin hacc
    have hcut : ele EScore.pinf (emax acc (f m acc EScore.pinf)) = false := by
      rw [ele]
      rw [elt_pinf_of_fin hmaxfin]
      rfl
    rw [if_neg (by rw [hcut]; exact Bool.false_ne_true)]
    by_cases hup : elt acc (f m acc EScore.pinf) = true
    · have hexact : f m acc EScore.pinf = g m := hrel0.1 hup hrp
      rw [← hexact]
      rw [emax_eq_right hup]
      exact ih _ _ (Or.inl (by rw [← emax_eq_right hup]; exact hmaxfin))
    · have hle : ele (f m acc EScore.pinf) acc = true := by
        rw [ele]
        rw [eq_false_of_ne_true hup]
        rfl
      have htr : ele (g m) (f m acc EScore.pinf) = true := hrel0.2.1 hle
      have hta : ele (g m) acc = true := ele_trans htr hle
      have hif_t : elt acc (g m) = false := ele_iff.mp hta
      rw [emax_eq_left (eq_false_of_ne_true hup), emax_eq_left hif_t]
      rw [if_neg (by rw [eq_false_of_ne_true hup]; exact Bool.false_ne_true)]
      rw [if_neg (by rw [hif_t]; exact Bool.false_ne_true)]
      exact ih _ _ hacc

/-- The dual statement for the minimizer rooted at a full window. -/
theorem abMinLoop_root {f : Move → EScore → EScore → EScore} {g : Move → EScore}
    (hrel : ChildRel f g) (hf : ∀ m a2 b2, isFin (f m a2 b2) = true) :
    ∀ (ms : List Move) (acc : EScore) (best : Option Move),
      (isFin acc = true ∨ acc = EScore.pinf) →
      abMinLoop f ms EScore.minf acc acc best = npMinLoop g ms acc best := by
  intro ms
  induction ms with
  | nil => intro acc best _; rfl
  | cons m ms ih =>
    intro acc best hacc
    rw [abMinLoop_cons, npMinLoop_cons]
    have haccm : elt EScore.minf acc = true := by
      rcases hacc with h | h
      · exact elt_minf_of_fin h
      · rw [h]; simp [elt]
    have hrel0 := hrel m EScore.minf acc haccm
    have hrfin : isFin (f m EScore.minf acc) = true := hf m EScore.minf acc
    have hrm : elt EScore.minf (f m EScore.minf acc) = true := elt_minf_of_fin hrfin
    have hminfin : isFin (emin acc (f m EScore.minf acc)) = true :=
      isFin_emin hrfin hacc
    have hcut : ele (emin acc (f m EScore.minf acc)) EScore.minf = false := by
      rw [ele]
      rw [elt_minf_of_fin hminfin]
      rfl
    rw [if_neg (by rw [hcut]; exact Bool.false_ne_true)]
    by_cases hup : elt (f m EScore.minf acc) acc = true
    · have hexact : f m EScore.minf acc = g m := hrel0.1 hrm hup
      rw [← hexact]
      rw [emin_eq_right hup]
      exact ih _ _ (Or.inl (by rw [← emin_eq_right hup]; exact hminfin))
    · have hle : ele acc (f m EScore.minf acc) = true := by
        rw [ele]
        rw [eq_false_of_ne_true hup]
        rfl
      have htr : ele (f m EScore.minf acc) (g m) = true := hrel0.2.2 hle
      have hta : ele acc (g m) = true := ele_trans hle htr
      have hif_t : elt (g m) acc = false := ele_iff.mp hta
      rw [emin_eq_left (eq_false_of_ne_true hup), emin_eq_left hif_t]
      rw [if_neg (by rw [eq_false_of_ne_true hup]; exact Bool.false_ne_true)]
      rw [if_neg (by rw [hif_t]; exact Bool.false_ne_true)]
      exact ih _ _ hacc

/-- C3: For every position and every depth D, the alpha-beta search
started with the full window (-inf, +inf) returns the same score AND the
same chosen move as the unpruned minimax search of the same position at
depth D, for either orientation of the root player. -/
theorem C3_alphabeta_eq_unpruned (d : Nat) (b : ChessBoard) (mx : Bool) :
    minimax d b EScore.minf EScore.pinf mx = minimaxNP d b mx := by
  cases d with
  | zero => rfl
  | succ d =>
    rw [minimax, minimaxNP]
    by_cases hg : isGameOverB b = true
    · rw [if_pos hg, if_pos hg]
    · rw [if_neg hg, if_neg hg]
      have hrel : ChildRel (fun m a2 b2 => (minimax d (pushB b m) a2 b2 false).1)
          (fun m => (minimaxNP d (pushB b m) false).1) :=
        fun m a2 b2 hab2 => minimax_bounds d (pushB b m) a2 b2 false hab2
      have hrelT : ChildRel (fun m a2 b2 => (minimax d (pushB b m) a2 b2 true).1)
          (fun m => (minimaxNP d (pushB b m) true).1) :=
        fun m a2 b2 hab2 => minimax_bounds d (pushB b m) a2 b2 true hab2
      cases mx with
      | true =>
        simp only [if_true]
        exact abMaxLoop_root hrel
          (fun m a2 b2 => minimax_isFin d (pushB b m) a2 b2 false)
          (legalMovesP b.pos) EScore.minf none (Or.inr rfl)
      | false =>
        simp only [Bool.false_eq_true, if_false]
        exact abMinLoop_root hrelT
          (fun m a2 b2 => minimax_isFin d (pushB b m) a2 b2 true)
          (legalMovesP b.pos) EScore.pinf none (Or.inr rfl)
